import Mathlib

/-!
Shallow embedding of `fcd/ast/pass_backend.cpp` (the control-flow structurizer
of the fcd decompiler backend): the loop normalizer
`ensureSingleEntrySingleExitCycles`, the `Structurizer` (its
`foldBasicBlocks` and the edge-rewiring step of `reduceRegion`) and the
driver `AstBackEnd::runOnModule` / `runOnFunction`.

Blocks and edges live in an arena in the C++ code; here they are addressed by
natural-number ids through association lists, so that in-place mutation of an
edge or of a block's statement becomes an update of the association list.
Pointer aliasing of statements (a block's `SequenceStatement` is referenced
both from the result sequence and mutated later when break statements are
appended) is modelled by keeping the result sequence as a list of
(block id, optional guard) pairs that are materialized into a `Stmt` only
after all mutations are done.
-/

namespace Fcd

/-- `Expression` (the relevant subset): the literal true returned by
`ctx.expressionForTrue()` (a singleton in the arena, compared by pointer in
the C++ code, hence by the dedicated constructor here), opaque expressions
(`atom`), and `NAryOperatorExpression` with short-circuit and/or. -/
inductive Expr where
  | etrue : Expr
  | atom : Nat → Expr
  | scAnd : Expr → Expr → Expr
  | scOr : Expr → Expr → Expr
deriving DecidableEq, Repr

/-- `Statement` (the relevant subset): sequence, if-else (else branch unused
by this subsystem), loop (pre-tested flag), break with guard condition, and
opaque original block statements (`atom`). -/
inductive Stmt where
  | seq : List Stmt → Stmt
  | ifElse : Expr → Stmt → Stmt
  | loop : Expr → Bool → Stmt → Stmt
  | brk : Expr → Stmt
  | atom : Nat → Stmt

abbrev BlockId := Nat
abbrev EdgeId := Nat

/-- `PreAstBasicBlockEdge`: `from`, `to`, `edgeCondition`. (`from` is a Lean
keyword, so the fields are `src` and `dst`.) -/
structure Edge where
  src : BlockId
  dst : BlockId
  edgeCondition : Expr
deriving DecidableEq, Repr

/-- `PreAstBasicBlock`: ordered predecessor and successor edge lists (by edge
id) and the attached `blockStatement` (null modelled as `none`). -/
structure Block where
  predecessors : List EdgeId
  successors : List EdgeId
  blockStatement : Option Stmt

/-- Association-list lookup by Nat key. -/
def lookupA {β : Type} (l : List (Nat × β)) (k : Nat) : Option β :=
  match l with
  | [] => none
  | (k', v) :: rest => if k' = k then some v else lookupA rest k

/-- Association-list update: replaces the binding of `k`, or appends it. -/
def setA {β : Type} (l : List (Nat × β)) (k : Nat) (v : β) : List (Nat × β) :=
  match l with
  | [] => [(k, v)]
  | (k', v') :: rest => if k' = k then (k, v) :: rest else (k', v') :: setA rest k v

/-- The block/edge arena of one function (`PreAstContext`). -/
structure CFG where
  blocks : List (BlockId × Block)
  edges : List (EdgeId × Edge)

def defaultBlock : Block := ⟨[], [], none⟩

def defaultEdge : Edge := ⟨0, 0, Expr.etrue⟩

/-- Dereference a block pointer (the C++ code assumes validity). -/
def CFG.block (g : CFG) (b : BlockId) : Block :=
  (lookupA g.blocks b).getD defaultBlock

/-- Dereference an edge pointer. -/
def CFG.edge (g : CFG) (e : EdgeId) : Edge :=
  (lookupA g.edges e).getD defaultEdge

def CFG.setBlock (g : CFG) (b : BlockId) (blk : Block) : CFG :=
  { g with blocks := setA g.blocks b blk }

def CFG.setEdge (g : CFG) (e : EdgeId) (ed : Edge) : CFG :=
  { g with edges := setA g.edges e ed }

/-- Replace a block's `blockStatement`. -/
def CFG.setStmt (g : CFG) (b : BlockId) (s : Stmt) : CFG :=
  g.setBlock b { g.block b with blockStatement := some s }

/-! ## `Structurizer::foldBasicBlocks` (pass_backend.cpp lines 162-272) -/

/-- The per-edge path condition of lines 194-217: `edgeCondition` starts as
`ctx.expressionForTrue()` and `parentCondition` as null; only when the
predecessor has a recorded reaching condition are they set to the edge's own
condition and the recorded condition. -/
def pathCondition (rc : List (BlockId × Expr)) (e : Edge) : Expr :=
  match lookupA rc e.src with
  | none => Expr.etrue
  | some parent =>
      if e.edgeCondition = Expr.etrue then parent
      else Expr.scAnd parent e.edgeCondition

/-- Lines 191-223: fold the path conditions of all incoming edges with
short-circuit OR; `none` when the block has no incoming edges
(`disjunctReachingCondition == nullptr`). -/
def disjunctReachingCondition (g : CFG) (rc : List (BlockId × Expr))
    (preds : List EdgeId) : Option Expr :=
  preds.foldl
    (fun acc eid =>
      let r := pathCondition rc (g.edge eid)
      match acc with
      | none => some r
      | some d => some (Expr.scOr d r))
    none

/-- Lines 227-235: ensure `bb.blockStatement` is a `SequenceStatement`,
wrapping a non-sequence (or creating an empty sequence for null). -/
def wrapInSequence (s : Option Stmt) : Stmt :=
  match s with
  | some (Stmt.seq l) => Stmt.seq l
  | some s => Stmt.seq [s]
  | none => Stmt.seq []

/-- State of the fold loop of lines 166-251. `resultSeq` holds the result
sequence as (block, guard) pairs: `none` means the block statement was pushed
directly, `some c` means it was pushed wrapped in `ctx.ifElse(c, ·)`.
(The `IfElseStatement` aliases the block's statement, which may still be
mutated by break insertion, so materialization is deferred.) -/
structure FoldState where
  g : CFG
  rc : List (BlockId × Expr)
  memberBlocks : List BlockId
  isLoop : Bool
  resultSeq : List (BlockId × Option Expr)

/-- One iteration of the loop at lines 171-251 for block `b`. Returns `none`
when the `assert(result.second)` at line 250 fails (the block already had a
reaching condition recorded). -/
def foldStep (st : FoldState) (b : BlockId) : Option FoldState :=
  let bb := st.g.block b
  let members := b :: st.memberBlocks
  let isLoop := st.isLoop ||
    bb.successors.any (fun eid => members.contains (st.g.edge eid).dst)
  let disjunct := disjunctReachingCondition st.g st.rc bb.predecessors
  let g := st.g.setStmt b (wrapInSequence bb.blockStatement)
  let entry : BlockId × Option Expr := (b, disjunct)
  let recorded := disjunct.getD Expr.etrue
  match lookupA st.rc b with
  | some _ => none
  | none =>
      some { g := g, rc := st.rc ++ [(b, recorded)], memberBlocks := members,
             isLoop := isLoop, resultSeq := st.resultSeq ++ [entry] }

/-- The whole loop at lines 171-251 over the range `[begin, end)`. -/
def foldPhase1 (g : CFG) (range : List BlockId) : Option FoldState :=
  range.foldlM foldStep
    { g := g, rc := [], memberBlocks := [], isLoop := false, resultSeq := [] }

/-- Line 263: `cast<SequenceStatement>(predecessor.blockStatement)->pushBack(...)`.
`none` models the failing cast (not a sequence or null). -/
def pushBackOnSequence (g : CFG) (b : BlockId) (s : Stmt) : Option CFG :=
  match (g.block b).blockStatement with
  | some (Stmt.seq l) => some (g.setStmt b (Stmt.seq (l ++ [s])))
  | _ => none

/-- Lines 257-265: append a conditional break to each range-member
predecessor of the loop's external successor. -/
def appendBreaks (members : List BlockId) (predEdges : List EdgeId) (g : CFG) :
    Option CFG :=
  predEdges.foldlM
    (fun g eid =>
      let e := g.edge eid
      if members.contains e.src then
        pushBackOnSequence g e.src (Stmt.brk e.edgeCondition)
      else
        some g)
    g

/-- Materialize one result-sequence entry against the final block arena:
either the block's statement itself or `ctx.ifElse(guard, statement)`. -/
def materializeEntry (g : CFG) (e : BlockId × Option Expr) : Stmt :=
  match e.2 with
  | none => (g.block e.1).blockStatement.getD (Stmt.seq [])
  | some guard => Stmt.ifElse guard ((g.block e.1).blockStatement.getD (Stmt.seq []))

def materialize (g : CFG) (entries : List (BlockId × Option Expr)) : Stmt :=
  Stmt.seq (entries.map (materializeEntry g))

/-- `Structurizer::foldBasicBlocks(begin, end)`. `range` is the block range
`[begin, end)` in post order; `after` is the rest of `blocksInPostOrder` from
`end`, so `after ≠ []` iff `end != blocksInPostOrder.end()` and `after.head`
is `*end`. Returns the final arena and the produced statement, `none` on an
assertion/cast failure. -/
def foldBasicBlocks (g : CFG) (range : List BlockId) (after : List BlockId) :
    Option (CFG × Stmt) := do
  let st ← foldPhase1 g range
  match after with
  | succ :: _ =>
      if st.isLoop then
        let g' ← appendBreaks st.memberBlocks (st.g.block succ).predecessors st.g
        pure (g', Stmt.loop Expr.etrue true (materialize g' st.resultSeq))
      else
        pure (st.g, materialize st.g st.resultSeq)
  | [] => pure (st.g, materialize st.g st.resultSeq)


/-! ## Helper lemmas about the association-list arena -/

theorem lookupA_setA_self {β : Type} (l : List (Nat × β)) (k : Nat) (v : β) :
    lookupA (setA l k v) k = some v := by
  induction l with
  | nil => simp [setA, lookupA]
  | cons p rest ih =>
      obtain ⟨k', v'⟩ := p
      by_cases h : k' = k
      · subst h; simp [setA, lookupA]
      · simp [setA, lookupA, h, ih]

theorem lookupA_setA_ne {β : Type} (l : List (Nat × β)) (k k' : Nat) (v : β)
    (h : k ≠ k') : lookupA (setA l k v) k' = lookupA l k' := by
  induction l with
  | nil => simp [setA, lookupA, h]
  | cons p rest ih =>
      obtain ⟨k0, v0⟩ := p
      by_cases h0 : k0 = k
      · subst h0; simp [setA, lookupA, h]
      · simp [setA, lookupA, h0, ih]

theorem lookupA_none_iff {β : Type} (l : List (Nat × β)) (k : Nat) :
    lookupA l k = none ↔ k ∉ l.map Prod.fst := by
  induction l with
  | nil => simp [lookupA]
  | cons p rest ih =>
      obtain ⟨k0, v0⟩ := p
      by_cases h0 : k0 = k
      · subst h0; simp [lookupA]
      · simp [lookupA, h0, ih, Ne.symm h0]

theorem lookupA_append_left {β : Type} (l l' : List (Nat × β)) (k : Nat)
    (h : lookupA l k = none) : lookupA (l ++ l') k = lookupA l' k := by
  induction l with
  | nil => simp [lookupA]
  | cons p rest ih =>
      obtain ⟨k0, v0⟩ := p
      by_cases h0 : k0 = k
      · subst h0; simp [lookupA] at h
      · simp [lookupA, h0] at h ⊢
        exact ih h

theorem lookupA_append_some {β : Type} (l l' : List (Nat × β)) (k : Nat) (v : β)
    (h : lookupA l k = some v) : lookupA (l ++ l') k = some v := by
  induction l with
  | nil => simp [lookupA] at h
  | cons p rest ih =>
      obtain ⟨k0, v0⟩ := p
      by_cases h0 : k0 = k
      · subst h0; simp [lookupA] at h ⊢; exact h
      · simp [lookupA, h0] at h ⊢
        exact ih h

theorem keys_setA_of_mem {β : Type} (l : List (Nat × β)) (k : Nat) (v : β)
    (h : k ∈ l.map Prod.fst) :
    (setA l k v).map Prod.fst = l.map Prod.fst := by
  induction l with
  | nil => simp at h
  | cons p rest ih =>
      obtain ⟨k0, v0⟩ := p
      by_cases h0 : k0 = k
      · subst h0; simp [setA]
      · simp [Ne.symm h0] at h
        have hmem : k ∈ rest.map Prod.fst := by
          obtain ⟨x, hx⟩ := h
          exact List.mem_map.mpr ⟨(k, x), hx, rfl⟩
        simp [setA, h0, ih hmem]

theorem lookupA_singleton_self {β : Type} (k : Nat) (v : β) :
    lookupA [(k, v)] k = some v := by
  simp [lookupA]

/-! ## Insertion with deduplication (`SmallPtrSet::insert` bookkeeping) -/

def insertUnique (l : List Nat) (x : Nat) : List Nat :=
  if x ∈ l then l else l ++ [x]

/-- `SmallPtrSet(v.begin(), v.end())`: deduplicate preserving first
occurrences. -/
def dedupL (l : List Nat) : List Nat :=
  l.foldl insertUnique []

theorem insertUnique_nodup (l : List Nat) (x : Nat) (h : l.Nodup) :
    (insertUnique l x).Nodup := by
  unfold insertUnique
  by_cases hx : x ∈ l
  · simpa [hx]
  · simp [hx, List.nodup_append, h]

theorem mem_insertUnique (l : List Nat) (x y : Nat) :
    y ∈ insertUnique l x ↔ y ∈ l ∨ y = x := by
  unfold insertUnique
  by_cases hx : x ∈ l
  · simp [hx]
    intro h; subst h; exact hx
  · simp [hx]

theorem insertUnique_ne_nil (l : List Nat) (x : Nat) : insertUnique l x ≠ [] := by
  unfold insertUnique
  by_cases hx : x ∈ l
  · simp [hx]
    intro h; subst h; simp at hx
  · simp [hx]

theorem dedupL_go_nodup (l acc : List Nat) (h : acc.Nodup) :
    (l.foldl insertUnique acc).Nodup := by
  induction l generalizing acc with
  | nil => simpa
  | cons x rest ih => exact ih _ (insertUnique_nodup _ _ h)

theorem dedupL_nodup (l : List Nat) : (dedupL l).Nodup :=
  dedupL_go_nodup l [] (by simp)

theorem mem_dedupL_go (l acc : List Nat) (y : Nat) :
    y ∈ l.foldl insertUnique acc ↔ y ∈ acc ∨ y ∈ l := by
  induction l generalizing acc with
  | nil => simp
  | cons x rest ih =>
      simp only [List.foldl_cons, ih, mem_insertUnique, List.mem_cons]
      tauto

theorem mem_dedupL (l : List Nat) (y : Nat) : y ∈ dedupL l ↔ y ∈ l := by
  simp [dedupL, mem_dedupL_go]

theorem dedupL_go_append (l l' acc : List Nat) :
    (l ++ l').foldl insertUnique acc = l'.foldl insertUnique (l.foldl insertUnique acc) := by
  simp [List.foldl_append]

theorem dedupL_append_singleton (l : List Nat) (x : Nat) :
    dedupL (l ++ [x]) = insertUnique (dedupL l) x := by
  simp [dedupL, List.foldl_append]

/-- A nodup list all of whose members equal `b` has length at most 1. -/
theorem nodup_all_eq_length_le_one (l : List Nat) (b : Nat) (hn : l.Nodup)
    (h : ∀ x ∈ l, x = b) : l.length ≤ 1 := by
  match l, hn with
  | [], _ => simp
  | [x], _ => simp
  | x :: y :: rest, hn =>
      have hx := h x (by simp)
      have hy := h y (by simp)
      subst hx
      rw [hy] at hn
      simp at hn

theorem nodup_all_eq_length_eq_one (l : List Nat) (b : Nat) (hn : l.Nodup)
    (hne : l ≠ []) (h : ∀ x ∈ l, x = b) : l.length = 1 := by
  have h1 := nodup_all_eq_length_le_one l b hn h
  have h2 : 0 < l.length := List.length_pos.mpr hne
  omega

/-! ## Characterization of `foldStep` and `foldPhase1` -/

theorem CFG.setStmt_edges (g : CFG) (b : BlockId) (s : Stmt) :
    (g.setStmt b s).edges = g.edges := rfl

theorem CFG.edge_setStmt (g : CFG) (b : BlockId) (s : Stmt) (e : EdgeId) :
    (g.setStmt b s).edge e = g.edge e := rfl

theorem CFG.block_setStmt_self (g : CFG) (b : BlockId) (s : Stmt) :
    (g.setStmt b s).block b = { g.block b with blockStatement := some s } := by
  simp [CFG.setStmt, CFG.setBlock, CFG.block, lookupA_setA_self]

theorem CFG.block_setStmt_ne (g : CFG) (b b' : BlockId) (s : Stmt) (h : b ≠ b') :
    (g.setStmt b s).block b' = g.block b' := by
  simp [CFG.setStmt, CFG.setBlock, CFG.block, lookupA_setA_ne _ _ _ _ h]

theorem foldStep_of_not_recorded (st : FoldState) (b : BlockId)
    (h : lookupA st.rc b = none) :
    foldStep st b = some
      { g := st.g.setStmt b (wrapInSequence (st.g.block b).blockStatement),
        rc := st.rc ++ [(b, (disjunctReachingCondition st.g st.rc
                 (st.g.block b).predecessors).getD Expr.etrue)],
        memberBlocks := b :: st.memberBlocks,
        isLoop := st.isLoop || (st.g.block b).successors.any
          (fun eid => (b :: st.memberBlocks).contains (st.g.edge eid).dst),
        resultSeq := st.resultSeq ++
          [(b, disjunctReachingCondition st.g st.rc (st.g.block b).predecessors)] } := by
  unfold foldStep
  rw [h]

theorem foldStep_of_recorded (st : FoldState) (b : BlockId) (c : Expr)
    (h : lookupA st.rc b = some c) : foldStep st b = none := by
  unfold foldStep
  rw [h]

theorem foldStep_some_inv (st st1 : FoldState) (b : BlockId)
    (h : foldStep st b = some st1) :
    lookupA st.rc b = none ∧
    st1 = { g := st.g.setStmt b (wrapInSequence (st.g.block b).blockStatement),
            rc := st.rc ++ [(b, (disjunctReachingCondition st.g st.rc
                     (st.g.block b).predecessors).getD Expr.etrue)],
            memberBlocks := b :: st.memberBlocks,
            isLoop := st.isLoop || (st.g.block b).successors.any
              (fun eid => (b :: st.memberBlocks).contains (st.g.edge eid).dst),
            resultSeq := st.resultSeq ++
              [(b, disjunctReachingCondition st.g st.rc (st.g.block b).predecessors)] } := by
  cases hrc : lookupA st.rc b with
  | some c => rw [foldStep_of_recorded st b c hrc] at h; cases h
  | none =>
      rw [foldStep_of_not_recorded st b hrc] at h
      exact ⟨rfl, (Option.some_inj.mp h).symm⟩

/-- Along a successful fold, the recorded keys are exactly the traversed
blocks (in order) and the member set accumulates them (reversed). -/
theorem foldlM_foldStep_shape (range : List BlockId) (st st' : FoldState)
    (h : range.foldlM foldStep st = some st') :
    st'.rc.map Prod.fst = st.rc.map Prod.fst ++ range ∧
    st'.memberBlocks = range.reverse ++ st.memberBlocks := by
  induction range generalizing st with
  | nil =>
      simp only [List.foldlM_nil] at h
      cases h; simp
  | cons b rest ih =>
      simp only [List.foldlM_cons] at h
      cases hs : foldStep st b with
      | none => rw [hs] at h; cases h
      | some st1 =>
          rw [hs] at h
          obtain ⟨-, hst1⟩ := foldStep_some_inv st st1 b hs
          obtain ⟨h1, h2⟩ := ih st1 h
          subst hst1
          constructor
          · simpa using h1
          · simpa using h2

theorem foldlM_foldStep_none_iff (range : List BlockId) (st : FoldState)
    (hkeys : (st.rc.map Prod.fst).Nodup) :
    range.foldlM foldStep st = none ↔ ¬ (st.rc.map Prod.fst ++ range).Nodup := by
  induction range generalizing st with
  | nil =>
      simp only [List.foldlM_nil, List.append_nil]
      simp [hkeys]
  | cons b rest ih =>
      simp only [List.foldlM_cons]
      cases hrc : lookupA st.rc b with
      | some c =>
          rw [foldStep_of_recorded st b c hrc]
          have hb : b ∈ st.rc.map Prod.fst := by
            by_contra hno
            rw [← lookupA_none_iff] at hno
            rw [hno] at hrc; cases hrc
          simp only [Option.bind_eq_bind, Option.none_bind, true_iff]
          intro hnd
          rw [List.nodup_append] at hnd
          exact hnd.2.2 hb (by simp)
      | none =>
          rw [foldStep_of_not_recorded st b hrc]
          have hb : b ∉ st.rc.map Prod.fst := by
            rw [← lookupA_none_iff]; exact hrc
          have hkeys1 : ((st.rc ++ [(b, (disjunctReachingCondition st.g st.rc
              (st.g.block b).predecessors).getD Expr.etrue)]).map Prod.fst).Nodup := by
            simp only [List.map_append, List.map_cons, List.map_nil]
            rw [List.nodup_append]
            refine ⟨hkeys, by simp, ?_⟩
            intro a ha hb'
            simp at hb'
            subst hb'
            exact hb ha
          have := ih { g := st.g.setStmt b (wrapInSequence (st.g.block b).blockStatement),
                       rc := st.rc ++ [(b, (disjunctReachingCondition st.g st.rc
                                (st.g.block b).predecessors).getD Expr.etrue)],
                       memberBlocks := b :: st.memberBlocks,
                       isLoop := st.isLoop || (st.g.block b).successors.any
                         (fun eid => (b :: st.memberBlocks).contains (st.g.edge eid).dst),
                       resultSeq := st.resultSeq ++
                         [(b, disjunctReachingCondition st.g st.rc
                             (st.g.block b).predecessors)] } (by simpa using hkeys1)
          simp only [Option.bind_eq_bind, Option.some_bind]
          rw [this]
          constructor
          · intro hne hnd
            apply hne
            simp only [List.map_append, List.map_cons, List.map_nil]
            rw [List.append_cons] at hnd
            simpa using hnd
          · intro hne hnd
            apply hne
            simp only [List.map_append, List.map_cons, List.map_nil] at hnd
            rw [List.append_cons]
            simpa using hnd

/-! ## The sequence invariant and break insertion -/

/-- `isa<SequenceStatement>(·)` on an optional statement. -/
def isSequence : Option Stmt → Bool
  | some (Stmt.seq _) => true
  | _ => false

theorem isSequence_wrapInSequence (s : Option Stmt) :
    isSequence (some (wrapInSequence s)) = true := by
  cases s with
  | none => rfl
  | some s => cases s <;> rfl

/-- After a successful traversal, every visited block (and every block that
already carried a sequence) carries a `SequenceStatement`. -/
theorem foldlM_foldStep_isSequence (range : List BlockId) (st st' : FoldState)
    (h : range.foldlM foldStep st = some st') (b : BlockId)
    (hb : b ∈ range ∨ isSequence ((st.g.block b).blockStatement) = true) :
    isSequence ((st'.g.block b).blockStatement) = true := by
  induction range generalizing st with
  | nil =>
      simp only [List.foldlM_nil] at h
      cases h
      cases hb with
      | inl h' => cases h'
      | inr h' => exact h'
  | cons b0 rest ih =>
      simp only [List.foldlM_cons] at h
      cases hs : foldStep st b0 with
      | none => rw [hs] at h; cases h
      | some st1 =>
          rw [hs] at h
          simp only [Option.bind_eq_bind, Option.some_bind] at h
          obtain ⟨-, hst1⟩ := foldStep_some_inv st st1 b0 hs
          refine ih st1 h ?_
          by_cases hbb : b = b0
          · subst hbb
            right
            rw [hst1]
            simp only
            rw [CFG.block_setStmt_self]
            exact isSequence_wrapInSequence _
          · cases hb with
            | inl h' =>
                cases List.mem_cons.mp h' with
                | inl h'' => exact absurd h'' hbb
                | inr h'' => exact Or.inl h''
            | inr h' =>
                right
                rw [hst1]
                simp only
                rw [CFG.block_setStmt_ne _ _ _ _ (Ne.symm hbb)]
                exact h'

theorem appendBreaks_cons (m : List BlockId) (eid : EdgeId) (rest : List EdgeId)
    (g : CFG) :
    appendBreaks m (eid :: rest) g =
      (if m.contains (g.edge eid).src then
         pushBackOnSequence g (g.edge eid).src (Stmt.brk (g.edge eid).edgeCondition)
       else some g).bind (fun g1 => appendBreaks m rest g1) := rfl

/-- Break insertion (lines 257-265): it succeeds whenever every member block
carries a sequence statement, it never touches edges or non-member blocks,
and it appends to each member block exactly the conditional breaks of the
exiting edges whose source is that block, in edge-list order. -/
theorem appendBreaks_spec (es : List EdgeId) (m : List BlockId) (g : CFG)
    (hseq : ∀ b ∈ m, isSequence ((g.block b).blockStatement) = true) :
    ∃ g', appendBreaks m es g = some g' ∧
      g'.edges = g.edges ∧
      (∀ b, b ∉ m → g'.block b = g.block b) ∧
      (∀ b l, (g.block b).blockStatement = some (Stmt.seq l) →
        (g'.block b).blockStatement = some (Stmt.seq (l ++
          (es.filter (fun eid => m.contains (g.edge eid).src &&
              ((g.edge eid).src == b))).map
            (fun eid => Stmt.brk (g.edge eid).edgeCondition)))) := by
  induction es generalizing g with
  | nil =>
      refine ⟨g, rfl, rfl, fun _ _ => rfl, ?_⟩
      intro b l hl
      simpa [List.filter_nil]
  | cons eid rest ih =>
      rw [appendBreaks_cons]
      by_cases hm : (g.edge eid).src ∈ m
      · have hcont : m.contains (g.edge eid).src = true := by simpa using hm
        have hsrc := hseq _ hm
        cases hstmt : (g.block (g.edge eid).src).blockStatement with
        | none => rw [hstmt] at hsrc; cases hsrc
        | some s =>
            cases s with
            | seq l0 =>
                have hpush : pushBackOnSequence g (g.edge eid).src
                    (Stmt.brk (g.edge eid).edgeCondition) =
                    some (g.setStmt (g.edge eid).src
                      (Stmt.seq (l0 ++ [Stmt.brk (g.edge eid).edgeCondition]))) := by
                  unfold pushBackOnSequence
                  rw [hstmt]
                rw [if_pos hcont, hpush, Option.some_bind]
                have hseq1 : ∀ b ∈ m, isSequence (((g.setStmt (g.edge eid).src
                    (Stmt.seq (l0 ++ [Stmt.brk (g.edge eid).edgeCondition]))).block b).blockStatement)
                    = true := by
                  intro b hb
                  by_cases hbs : (g.edge eid).src = b
                  · rw [← hbs, CFG.block_setStmt_self]
                    rfl
                  · rw [CFG.block_setStmt_ne _ _ _ _ hbs]
                    exact hseq b hb
                obtain ⟨g', hg', he', hnm', hch'⟩ := ih _ hseq1
                simp only [CFG.edge_setStmt] at hch'
                refine ⟨g', hg', by rw [he']; rfl, ?_, ?_⟩
                · intro b hb
                  rw [hnm' b hb, CFG.block_setStmt_ne]
                  intro hc
                  rw [hc] at hm
                  exact hb hm
                · intro b l hl
                  by_cases hbs : (g.edge eid).src = b
                  · rw [← hbs] at hl ⊢
                    rw [hstmt] at hl
                    cases hl
                    have hb1 : ((g.setStmt (g.edge eid).src
                        (Stmt.seq (l0 ++ [Stmt.brk (g.edge eid).edgeCondition]))).block
                          (g.edge eid).src).blockStatement =
                        some (Stmt.seq (l0 ++ [Stmt.brk (g.edge eid).edgeCondition])) := by
                      rw [CFG.block_setStmt_self]
                    rw [hch' _ _ hb1]
                    rw [List.filter_cons, if_pos (by rw [hcont]; simp)]
                    simp
                  · have hb1 : ((g.setStmt (g.edge eid).src
                        (Stmt.seq (l0 ++ [Stmt.brk (g.edge eid).edgeCondition]))).block
                          b).blockStatement = some (Stmt.seq l) := by
                      rw [CFG.block_setStmt_ne _ _ _ _ hbs]
                      exact hl
                    rw [hch' _ _ hb1]
                    rw [List.filter_cons,
                      if_neg (by rw [beq_false_of_ne hbs, Bool.and_false]
                                 exact Bool.false_ne_true)]
            | ifElse c s' => rw [hstmt] at hsrc; cases hsrc
            | loop c p s' => rw [hstmt] at hsrc; cases hsrc
            | brk c => rw [hstmt] at hsrc; cases hsrc
            | atom n => rw [hstmt] at hsrc; cases hsrc
      · have hcont : m.contains (g.edge eid).src = false := by simp [hm]
        rw [hcont]
        simp only [Bool.false_eq_true, if_false, Option.some_bind]
        obtain ⟨g', hg', he', hnm', hch'⟩ := ih g hseq
        refine ⟨g', hg', he', hnm', ?_⟩
        intro b l hl
        rw [hch' b l hl]
        rw [List.filter_cons, if_neg (by rw [hcont, Bool.false_and]; exact Bool.false_ne_true)]

/-! ## Reduction lemmas for `foldBasicBlocks` -/

theorem foldBasicBlocks_after_nil (g : CFG) (range : List BlockId)
    (st : FoldState) (h : foldPhase1 g range = some st) :
    foldBasicBlocks g range [] = some (st.g, materialize st.g st.resultSeq) := by
  unfold foldBasicBlocks
  rw [h]
  rfl

theorem foldBasicBlocks_after_cons_loop (g : CFG) (range : List BlockId)
    (succ : BlockId) (rest : List BlockId) (st : FoldState)
    (h : foldPhase1 g range = some st) (hL : st.isLoop = true) :
    foldBasicBlocks g range (succ :: rest) =
      (appendBreaks st.memberBlocks (st.g.block succ).predecessors st.g).bind
        (fun g' => some (g', Stmt.loop Expr.etrue true (materialize g' st.resultSeq))) := by
  unfold foldBasicBlocks
  rw [h]
  show (if st.isLoop = true then
      (appendBreaks st.memberBlocks (st.g.block succ).predecessors st.g).bind
        (fun g' => some (g', Stmt.loop Expr.etrue true (materialize g' st.resultSeq)))
    else some (st.g, materialize st.g st.resultSeq)) = _
  rw [if_pos hL]

theorem foldBasicBlocks_after_cons_noloop (g : CFG) (range : List BlockId)
    (succ : BlockId) (rest : List BlockId) (st : FoldState)
    (h : foldPhase1 g range = some st) (hL : st.isLoop = false) :
    foldBasicBlocks g range (succ :: rest) =
      some (st.g, materialize st.g st.resultSeq) := by
  unfold foldBasicBlocks
  rw [h]
  show (if st.isLoop = true then
      (appendBreaks st.memberBlocks (st.g.block succ).predecessors st.g).bind
        (fun g' => some (g', Stmt.loop Expr.etrue true (materialize g' st.resultSeq)))
    else some (st.g, materialize st.g st.resultSeq)) = _
  rw [if_neg (by rw [hL]; exact Bool.false_ne_true)]

/-- Member blocks of a completed traversal are exactly the range. -/
theorem foldPhase1_memberBlocks (g : CFG) (range : List BlockId) (st : FoldState)
    (h : foldPhase1 g range = some st) (b : BlockId) :
    b ∈ st.memberBlocks ↔ b ∈ range := by
  obtain ⟨-, hm⟩ := foldlM_foldStep_shape range _ st h
  rw [hm]
  simp

/-- Every range block carries a sequence statement after a completed
traversal. -/
theorem foldPhase1_isSequence (g : CFG) (range : List BlockId) (st : FoldState)
    (h : foldPhase1 g range = some st) (b : BlockId) (hb : b ∈ range) :
    isSequence ((st.g.block b).blockStatement) = true :=
  foldlM_foldStep_isSequence range _ st h b (Or.inl hb)

/-! ## Concrete graphs used by counterexamples and witnesses -/

/-- Block 0 (outside any folded range) branches to block 1 under condition
`atom 5`. -/
def exCfg1 : CFG :=
  { blocks := [(0, ⟨[], [0], some (Stmt.atom 0)⟩), (1, ⟨[0], [], some (Stmt.atom 1)⟩)],
    edges := [(0, ⟨0, 1, Expr.atom 5⟩)] }

/-- A two-block loop: 10 → 11 (true), 11 → 10 (true, back-edge),
10 → 12 (atom 7, the exiting edge); 12 is the external successor. -/
def wG : CFG :=
  { blocks := [(10, ⟨[1], [0, 2], some (Stmt.atom 100)⟩),
               (11, ⟨[0], [1], some (Stmt.atom 101)⟩),
               (12, ⟨[2], [], none⟩)],
    edges := [(0, ⟨10, 11, Expr.etrue⟩), (1, ⟨11, 10, Expr.etrue⟩),
              (2, ⟨10, 12, Expr.atom 7⟩)] }

def emptyFoldState : FoldState := ⟨⟨[], []⟩, [], [], false, []⟩

def stW : FoldState := (foldPhase1 wG [10, 11]).getD emptyFoldState

/-- A disjunction folded from at least one path condition is never null. -/
theorem foldl_scOr_some (g : CFG) (rc : List (BlockId × Expr)) (es : List EdgeId)
    (d0 : Expr) :
    ∃ c, es.foldl
      (fun acc eid =>
        let r := pathCondition rc (g.edge eid)
        match acc with
        | none => some r
        | some d => some (Expr.scOr d r))
      (some d0) = some c := by
  induction es generalizing d0 with
  | nil => exact ⟨d0, rfl⟩
  | cons e rest ih => exact ih (Expr.scOr d0 (pathCondition rc (g.edge e)))

theorem disjunctReachingCondition_eq_none_iff (g : CFG) (rc : List (BlockId × Expr))
    (preds : List EdgeId) :
    disjunctReachingCondition g rc preds = none ↔ preds = [] := by
  cases preds with
  | nil => simp [disjunctReachingCondition]
  | cons e es =>
      obtain ⟨c, hc⟩ := foldl_scOr_some g rc es (pathCondition rc (g.edge e))
      have hfold : disjunctReachingCondition g rc (e :: es) = some c := by
        unfold disjunctReachingCondition
        rw [List.foldl_cons]
        exact hc
      rw [hfold]
      simp

/-! ## C1 -/

/-- C1 as stated is false: in `exCfg1`, block 1's single incoming edge has a
source (block 0, outside the folded range `[1]`) with no recorded reaching
condition, and the edge's own condition is `atom 5`; the path condition the
fold computes and records is nevertheless the literal true — the edge's own
condition is ignored for such edges (pass_backend.cpp line 195: the edge
condition defaults to `ctx.expressionForTrue()` and is only replaced when
the source has a recorded condition). -/
theorem entry_edge_condition_ignored :
    (foldPhase1 exCfg1 [1]).map (fun st => lookupA st.rc 1) = some (some Expr.etrue) ∧
    (exCfg1.block 1).predecessors = [0] ∧
    (exCfg1.edge 0).edgeCondition = Expr.atom 5 ∧
    Expr.etrue ≠ Expr.atom 5 :=
  ⟨rfl, rfl, rfl, by decide⟩

/-- C1 (amended): the path condition contributed by an incoming edge whose
source has no recorded reaching condition is the literal true (the edge's
own condition is ignored — that source lies outside the range); for an edge
whose source has a recorded condition it is the short-circuit AND of the
source's condition and the edge's condition, simplified to the source's
condition when the edge's condition is the literal true; the block's
recorded reaching condition is the short-circuit OR of these path
conditions in predecessor order (defaulting to literal true when there are
no predecessors). -/
theorem foldStep_path_conditions (st : FoldState) (b : BlockId)
    (h : lookupA st.rc b = none) :
    ∃ st', foldStep st b = some st' ∧
      lookupA st'.rc b = some
        ((((st.g.block b).predecessors.map (fun eid =>
            match lookupA st.rc (st.g.edge eid).src with
            | none => Expr.etrue
            | some parent =>
                if (st.g.edge eid).edgeCondition = Expr.etrue then parent
                else Expr.scAnd parent (st.g.edge eid).edgeCondition)).foldl
          (fun acc r => match acc with
            | none => some r
            | some d => some (Expr.scOr d r)) none).getD Expr.etrue) := by
  refine ⟨_, foldStep_of_not_recorded st b h, ?_⟩
  rw [lookupA_append_left _ _ _ h, lookupA_singleton_self]
  congr 2
  unfold disjunctReachingCondition
  rw [List.foldl_map]
  rfl

/-- Witness for the amended C1. -/
theorem foldStep_path_conditions_witness :
    ∃ st', foldStep emptyFoldState 1 = some st' ∧
      lookupA st'.rc 1 = some
        ((((emptyFoldState.g.block 1).predecessors.map (fun eid =>
            match lookupA emptyFoldState.rc (emptyFoldState.g.edge eid).src with
            | none => Expr.etrue
            | some parent =>
                if (emptyFoldState.g.edge eid).edgeCondition = Expr.etrue then parent
                else Expr.scAnd parent (emptyFoldState.g.edge eid).edgeCondition)).foldl
          (fun acc r => match acc with
            | none => some r
            | some d => some (Expr.scOr d r)) none).getD Expr.etrue) :=
  foldStep_path_conditions emptyFoldState 1 rfl

/-! ## C4 -/

/-- C4 as stated is false: in `exCfg1`, folding the range `[1]` records the
literal true as block 1's reaching condition, yet the emitted statement
wraps the block's statement in a conditional `if (true)` — a block whose
reaching condition is the literal true is emitted unguarded only when that
condition arose from having no predecessor at all (the null
`disjunctReachingCondition` of line 238), not whenever the condition equals
the literal true. -/
theorem reaching_condition_true_still_guarded :
    (foldPhase1 exCfg1 [1]).map (fun st => lookupA st.rc 1) = some (some Expr.etrue) ∧
    (foldBasicBlocks exCfg1 [1] []).map Prod.snd =
      some (Stmt.seq [Stmt.ifElse Expr.etrue (Stmt.seq [Stmt.atom 1])]) :=
  ⟨rfl, rfl⟩

/-- C4 (amended): a block's statement is appended to the result sequence
without an enclosing conditional exactly when the block has no incoming
edges (the null disjunction defaults to the literal true); a block with at
least one incoming edge is always wrapped in an if-statement whose guard is
the computed reaching condition — even when that guard is the literal
true. -/
theorem foldStep_guard_emission (st : FoldState) (b : BlockId)
    (h : lookupA st.rc b = none) :
    ∃ st', foldStep st b = some st' ∧
      ((st.g.block b).predecessors = [] →
        st'.resultSeq = st.resultSeq ++ [(b, none)] ∧
        lookupA st'.rc b = some Expr.etrue ∧
        ∀ gF : CFG, materializeEntry gF (b, (none : Option Expr)) =
          (gF.block b).blockStatement.getD (Stmt.seq [])) ∧
      ((st.g.block b).predecessors ≠ [] →
        ∃ c, st'.resultSeq = st.resultSeq ++ [(b, some c)] ∧
          ∀ gF : CFG, materializeEntry gF (b, some c) =
            Stmt.ifElse c ((gF.block b).blockStatement.getD (Stmt.seq []))) := by
  refine ⟨_, foldStep_of_not_recorded st b h, ?_, ?_⟩
  · intro hp
    refine ⟨?_, ?_, fun _ => rfl⟩
    · simp only [hp]
      rfl
    · rw [lookupA_append_left _ _ _ h, hp, lookupA_singleton_self]
      rfl
  · intro hp
    cases hd : disjunctReachingCondition st.g st.rc (st.g.block b).predecessors with
    | none => exact absurd ((disjunctReachingCondition_eq_none_iff _ _ _).mp hd) hp
    | some c =>
        refine ⟨c, ?_, fun _ => rfl⟩
        simp only [hd]

/-- Witness for the amended C4. -/
theorem foldStep_guard_emission_witness :
    ∃ st', foldStep emptyFoldState 3 = some st' ∧
      ((emptyFoldState.g.block 3).predecessors = [] →
        st'.resultSeq = emptyFoldState.resultSeq ++ [(3, none)] ∧
        lookupA st'.rc 3 = some Expr.etrue ∧
        ∀ gF : CFG, materializeEntry gF (3, (none : Option Expr)) =
          (gF.block 3).blockStatement.getD (Stmt.seq [])) ∧
      ((emptyFoldState.g.block 3).predecessors ≠ [] →
        ∃ c, st'.resultSeq = emptyFoldState.resultSeq ++ [(3, some c)] ∧
          ∀ gF : CFG, materializeEntry gF (3, some c) =
            Stmt.ifElse c ((gF.block 3).blockStatement.getD (Stmt.seq []))) :=
  foldStep_guard_emission emptyFoldState 3 rfl

/-! ## C8 -/

/-- C8: within one folded range, exactly one reaching-condition expression is
recorded per traversed block — the recorded keys are exactly the range, in
traversal order — and traversing a block that already has a recorded
condition (a duplicated block in the range) makes the whole fold fail on the
`assert(result.second)` of line 250 instead of silently overwriting. -/
theorem foldPhase1_records_once (g : CFG) (range : List BlockId) :
    (foldPhase1 g range).map (fun st => st.rc.map Prod.fst) =
      if range.Nodup then some range else none := by
  by_cases hnd : range.Nodup
  · rw [if_pos hnd]
    cases hp : foldPhase1 g range with
    | none =>
        unfold foldPhase1 at hp
        rw [foldlM_foldStep_none_iff range _ (by simp)] at hp
        simp at hp
        exact absurd hnd hp
    | some st =>
        obtain ⟨hkeys, -⟩ := foldlM_foldStep_shape range _ st hp
        show some (st.rc.map Prod.fst) = some range
        rw [hkeys]
        simp
  · rw [if_neg hnd]
    have : foldPhase1 g range = none := by
      unfold foldPhase1
      rw [foldlM_foldStep_none_iff range _ (by simp)]
      simpa using hnd
    rw [this]
    rfl

/-! ## C10 -/

/-- C10: after the traversal phase of `foldBasicBlocks`, every block of the
range carries a `SequenceStatement` (a non-sequence or null statement was
wrapped into a fresh sequence at lines 227-235), and therefore the unchecked
`cast<SequenceStatement>` at line 263 always succeeds: the whole fold
produces a result for any `after` continuation. -/
theorem foldBasicBlocks_cast_safe (g : CFG) (range after : List BlockId)
    (st : FoldState) (h : foldPhase1 g range = some st) :
    (∀ b ∈ range, isSequence ((st.g.block b).blockStatement) = true) ∧
    ∃ r, foldBasicBlocks g range after = some r := by
  have hseqAll : ∀ b ∈ range, isSequence ((st.g.block b).blockStatement) = true :=
    fun b hb => foldPhase1_isSequence g range st h b hb
  refine ⟨hseqAll, ?_⟩
  cases after with
  | nil => exact ⟨_, foldBasicBlocks_after_nil g range st h⟩
  | cons succ rest =>
      cases hL : st.isLoop with
      | false => exact ⟨_, foldBasicBlocks_after_cons_noloop g range succ rest st h hL⟩
      | true =>
          have hseqM : ∀ b ∈ st.memberBlocks,
              isSequence ((st.g.block b).blockStatement) = true := by
            intro b hb
            exact hseqAll b ((foldPhase1_memberBlocks g range st h b).mp hb)
          obtain ⟨g', hg', -, -, -⟩ :=
            appendBreaks_spec (st.g.block succ).predecessors st.memberBlocks st.g hseqM
          refine ⟨(g', Stmt.loop Expr.etrue true (materialize g' st.resultSeq)), ?_⟩
          rw [foldBasicBlocks_after_cons_loop g range succ rest st h hL, hg']
          rfl

/-- Witness for C10 on the concrete two-block loop `wG`. -/
theorem foldBasicBlocks_cast_safe_witness :
    (∀ b ∈ [10, 11], isSequence ((stW.g.block b).blockStatement) = true) ∧
    ∃ r, foldBasicBlocks wG [10, 11] [12] = some r :=
  foldBasicBlocks_cast_safe wG [10, 11] [12] stW rfl

/-! ## C2 -/

/-- C2: when a back-edge was detected (`isLoop`) and the range is not the
entire function (`end != blocksInPostOrder.end()`, i.e. the `after`
continuation is nonempty), the fold returns a pre-tested loop whose
condition is the literal true wrapping the accumulated sequence; when a
back-edge was detected but the range is the entire function (`after`
empty), the accumulated sequence is returned with no loop wrapper. -/
theorem foldBasicBlocks_loop_wrapping (g : CFG) (range after : List BlockId)
    (st : FoldState) (h : foldPhase1 g range = some st) (hL : st.isLoop = true) :
    (∀ succ rest, after = succ :: rest →
      ∃ g', foldBasicBlocks g range after =
        some (g', Stmt.loop Expr.etrue true (materialize g' st.resultSeq))) ∧
    (after = [] →
      foldBasicBlocks g range after =
        some (st.g, Stmt.seq (st.resultSeq.map (materializeEntry st.g)))) := by
  constructor
  · intro succ rest ha
    subst ha
    have hseqM : ∀ b ∈ st.memberBlocks,
        isSequence ((st.g.block b).blockStatement) = true :=
      fun b hb => foldPhase1_isSequence g range st h b
        ((foldPhase1_memberBlocks g range st h b).mp hb)
    obtain ⟨g', hg', -, -, -⟩ :=
      appendBreaks_spec (st.g.block succ).predecessors st.memberBlocks st.g hseqM
    refine ⟨g', ?_⟩
    rw [foldBasicBlocks_after_cons_loop g range succ rest st h hL, hg']
    rfl
  · intro ha
    subst ha
    exact foldBasicBlocks_after_nil g range st h

/-- Witness for C2 on the two-block loop `wG` with external successor 12. -/
theorem foldBasicBlocks_loop_wrapping_witness :
    (∀ succ rest, ([12] : List BlockId) = succ :: rest →
      ∃ g', foldBasicBlocks wG [10, 11] [12] =
        some (g', Stmt.loop Expr.etrue true (materialize g' stW.resultSeq))) ∧
    (([12] : List BlockId) = [] →
      foldBasicBlocks wG [10, 11] [12] =
        some (stW.g, Stmt.seq (stW.resultSeq.map (materializeEntry stW.g)))) :=
  foldBasicBlocks_loop_wrapping wG [10, 11] [12] stW rfl rfl

/-! ## C3 -/

/-- C3: for a detected loop whose range has an external successor, exactly
one conditional break per (range-member source block, exiting edge to that
successor) pair is appended, at the end of that source block's statement
sequence and guarded by that edge's original condition, in
predecessor-list order; predecessors of the successor that are not range
members trigger no break, and blocks outside the range are untouched. -/
theorem foldBasicBlocks_break_placement (g : CFG) (range : List BlockId)
    (succ : BlockId) (rest : List BlockId) (st : FoldState) (g' : CFG) (s : Stmt)
    (h : foldPhase1 g range = some st) (hL : st.isLoop = true)
    (hf : foldBasicBlocks g range (succ :: rest) = some (g', s)) :
    (∀ b ∈ range, ∀ l, (st.g.block b).blockStatement = some (Stmt.seq l) →
      (g'.block b).blockStatement = some (Stmt.seq (l ++
        (((st.g.block succ).predecessors.filter
            (fun eid => st.memberBlocks.contains (st.g.edge eid).src &&
              ((st.g.edge eid).src == b))).map
          (fun eid => Stmt.brk (st.g.edge eid).edgeCondition))))) ∧
    (∀ b, b ∉ range → g'.block b = st.g.block b) := by
  have hseqM : ∀ b ∈ st.memberBlocks,
      isSequence ((st.g.block b).blockStatement) = true :=
    fun b hb => foldPhase1_isSequence g range st h b
      ((foldPhase1_memberBlocks g range st h b).mp hb)
  obtain ⟨gA, hgA, hedges, hnm, hch⟩ :=
    appendBreaks_spec (st.g.block succ).predecessors st.memberBlocks st.g hseqM
  have hred : foldBasicBlocks g range (succ :: rest) =
      some (gA, Stmt.loop Expr.etrue true (materialize gA st.resultSeq)) := by
    rw [foldBasicBlocks_after_cons_loop g range succ rest st h hL, hgA]
    rfl
  rw [hred] at hf
  have hpair := Option.some.inj hf
  have hgeq : gA = g' := congrArg Prod.fst hpair
  subst hgeq
  constructor
  · intro b hb l hl
    exact hch b l hl
  · intro b hb
    exact hnm b (fun hc => hb ((foldPhase1_memberBlocks g range st h b).mp hc))

def foldW : CFG × Stmt := (foldBasicBlocks wG [10, 11] [12]).getD (⟨[], []⟩, Stmt.seq [])

/-- Witness for C3 on the two-block loop `wG`. -/
theorem foldBasicBlocks_break_placement_witness :
    (∀ b ∈ [10, 11], ∀ l, (stW.g.block b).blockStatement = some (Stmt.seq l) →
      ((foldW.1).block b).blockStatement = some (Stmt.seq (l ++
        (((stW.g.block 12).predecessors.filter
            (fun eid => stW.memberBlocks.contains (stW.g.edge eid).src &&
              ((stW.g.edge eid).src == b))).map
          (fun eid => Stmt.brk (stW.g.edge eid).edgeCondition))))) ∧
    (∀ b, b ∉ ([10, 11] : List BlockId) → (foldW.1).block b = stW.g.block b) :=
  foldBasicBlocks_break_placement wG [10, 11] 12 [] stW foldW.1 foldW.2 rfl rfl rfl

/-! ## `Structurizer::reduceRegion` edge rewiring (lines 315-338) and C6 -/

theorem CFG.block_setBlock_self (g : CFG) (b : BlockId) (blk : Block) :
    (g.setBlock b blk).block b = blk := by
  simp [CFG.setBlock, CFG.block, lookupA_setA_self]

theorem CFG.block_setBlock_ne (g : CFG) (b b' : BlockId) (blk : Block) (h : b ≠ b') :
    (g.setBlock b blk).block b' = g.block b' := by
  simp [CFG.setBlock, CFG.block, lookupA_setA_ne _ _ _ _ h]

theorem CFG.edge_setBlock (g : CFG) (b : BlockId) (blk : Block) (e : EdgeId) :
    (g.setBlock b blk).edge e = g.edge e := rfl

theorem CFG.edges_setBlock (g : CFG) (b : BlockId) (blk : Block) :
    (g.setBlock b blk).edges = g.edges := rfl

theorem CFG.edge_setEdge_self (g : CFG) (e : EdgeId) (ed : Edge) :
    (g.setEdge e ed).edge e = ed := by
  simp [CFG.setEdge, CFG.edge, lookupA_setA_self]

theorem CFG.edge_setEdge_ne (g : CFG) (e e' : EdgeId) (ed : Edge) (h : e ≠ e') :
    (g.setEdge e ed).edge e' = g.edge e' := by
  simp [CFG.setEdge, CFG.edge, lookupA_setA_ne _ _ _ _ h]

theorem CFG.blocks_setEdge (g : CFG) (e : EdgeId) (ed : Edge) :
    (g.setEdge e ed).blocks = g.blocks := rfl

theorem CFG.block_setEdge (g : CFG) (e : EdgeId) (ed : Edge) (b : BlockId) :
    (g.setEdge e ed).block b = g.block b := rfl

def freshEdgeId (g : CFG) : EdgeId := (g.edges.map Prod.fst).foldl max 0 + 1

def freshBlockId (g : CFG) : BlockId := (g.blocks.map Prod.fst).foldl max 0 + 1

theorem le_foldl_max_init (l : List Nat) (a : Nat) : a ≤ l.foldl max a := by
  induction l generalizing a with
  | nil => exact le_refl a
  | cons x rest ih => exact le_trans (le_max_left a x) (ih (max a x))

theorem foldl_max_le_of_mem (l : List Nat) (a k : Nat) :
    k ∈ l → k ≤ l.foldl max a := by
  induction l generalizing a with
  | nil => intro h; cases h
  | cons x rest ih =>
      intro h
      rw [List.foldl_cons]
      rcases List.mem_cons.mp h with hx | hx
      · subst hx
        exact le_trans (le_max_right a k) (le_foldl_max_init rest (max a k))
      · exact ih (max a x) hx

theorem lt_freshEdgeId_of_mem (g : CFG) (k : EdgeId)
    (h : k ∈ g.edges.map Prod.fst) : k < freshEdgeId g := by
  have hle := foldl_max_le_of_mem (g.edges.map Prod.fst) 0 k h
  show k < (g.edges.map Prod.fst).foldl max 0 + 1
  exact Nat.lt_succ_of_le hle

theorem lt_freshBlockId_of_mem (g : CFG) (k : BlockId)
    (h : k ∈ g.blocks.map Prod.fst) : k < freshBlockId g := by
  have hle := foldl_max_le_of_mem (g.blocks.map Prod.fst) 0 k h
  show k < (g.blocks.map Prod.fst).foldl max 0 + 1
  exact Nat.lt_succ_of_le hle

/-- `incomingEdge->to = &newBlock`: in-place retargeting of one edge. -/
def Edge.retarget (e : Edge) (b : BlockId) : Edge := ⟨e.src, b, e.edgeCondition⟩

/-- The retargeting loop over a list of edge ids. -/
def retargetAll (g : CFG) (inc : List EdgeId) (newBlock : BlockId) : CFG :=
  inc.foldl (fun g eid => g.setEdge eid ((g.edge eid).retarget newBlock)) g

/-- Lines 315-338 of `Structurizer::reduceRegion`: after a child region with
entry block `entry` and exit block `exit` has been folded into the synthetic
block `newBlock`, fix the edges around it: all edges into `entry` are
retargeted (in place) to `newBlock` and collected as its predecessors,
`entry`'s predecessor list is cleared, the exit predecessors that come from
inside the child region are erased, and a single new unconditional edge
`newBlock → exit` is created. `childContains` models `child->contains(·)`. -/
def rewireChildRegion (g : CFG) (entry exit newBlock : BlockId)
    (childContains : BlockId → Bool) : CFG :=
  let incoming := (g.block entry).predecessors
  let g1 := retargetAll g incoming newBlock
  let g2 := g1.setBlock newBlock
    { g1.block newBlock with
        predecessors := (g1.block newBlock).predecessors ++ incoming }
  let g3 := g2.setBlock entry { g2.block entry with predecessors := [] }
  let g4 := g3.setBlock exit
    { g3.block exit with
        predecessors := (g3.block exit).predecessors.filter
          (fun eid => !childContains ((g3.edge eid).src)) }
  let nid := freshEdgeId g4
  let g5 := { g4 with edges := g4.edges ++ [(nid, Edge.mk newBlock exit Expr.etrue)] }
  let g6 := g5.setBlock exit
    { g5.block exit with predecessors := (g5.block exit).predecessors ++ [nid] }
  g6.setBlock newBlock
    { g6.block newBlock with successors := (g6.block newBlock).successors ++ [nid] }

/-- The retargeting loop characterized. -/
theorem retargetAll_spec (inc : List EdgeId) (newBlock : BlockId) (g : CFG)
    (hv : ∀ eid ∈ inc, eid ∈ g.edges.map Prod.fst) :
    (retargetAll g inc newBlock).blocks = g.blocks ∧
    ((retargetAll g inc newBlock).edges.map Prod.fst = g.edges.map Prod.fst) ∧
    (∀ eid ∈ inc, (retargetAll g inc newBlock).edge eid =
      (g.edge eid).retarget newBlock) ∧
    (∀ eid, eid ∉ inc → (retargetAll g inc newBlock).edge eid = g.edge eid) := by
  induction inc generalizing g with
  | nil =>
      refine ⟨rfl, rfl, ?_, ?_⟩
      · intro _ h
        cases h
      · intro _ _
        rfl
  | cons i rest ih =>
      have hvkeys : i ∈ g.edges.map Prod.fst := hv i (by simp)
      have hkeys1 : (g.setEdge i ((g.edge i).retarget newBlock)).edges.map Prod.fst
          = g.edges.map Prod.fst := by
        simp [CFG.setEdge, keys_setA_of_mem _ _ _ hvkeys]
      have hv1 : ∀ eid ∈ rest,
          eid ∈ (g.setEdge i ((g.edge i).retarget newBlock)).edges.map Prod.fst := by
        intro eid he
        rw [hkeys1]
        exact hv eid (by simp [he])
      have hstep : retargetAll g (i :: rest) newBlock =
          retargetAll (g.setEdge i ((g.edge i).retarget newBlock)) rest newBlock := rfl
      obtain ⟨hb, hk, hin, hout⟩ := ih (g.setEdge i ((g.edge i).retarget newBlock)) hv1
      rw [hstep]
      refine ⟨by rw [hb]; rfl, by rw [hk, hkeys1], ?_, ?_⟩
      · intro eid he
        rcases List.mem_cons.mp he with hei | hr
        · subst hei
          by_cases hr : eid ∈ rest
          · rw [hin eid hr, CFG.edge_setEdge_self]
            rfl
          · rw [hout eid hr, CFG.edge_setEdge_self]
        · rw [hin eid hr]
          by_cases hei : i = eid
          · subst hei
            rw [CFG.edge_setEdge_self]
            rfl
          · rw [CFG.edge_setEdge_ne _ _ _ _ hei]
      · intro eid he
        have hr : eid ∉ rest := fun hc => he (by simp [hc])
        have hi : i ≠ eid := fun hc => he (by simp [hc])
        rw [hout eid hr, CFG.edge_setEdge_ne _ _ _ _ hi]

theorem lookupA_some_of_mem_keys {β : Type} (l : List (Nat × β)) (k : Nat)
    (h : k ∈ l.map Prod.fst) : ∃ v, lookupA l k = some v := by
  cases hl : lookupA l k with
  | some v => exact ⟨v, rfl⟩
  | none => exact absurd ((lookupA_none_iff l k).mp hl) (by simpa using h)

/-- C6: when `reduceRegion` collapses a child region (entry `entry`, exit
`exit`) into the synthetic block `newBlock`, every edge that previously
pointed to the child's entry is retargeted in place to `newBlock` (keeping
its source and condition) and collected as `newBlock`'s predecessors, the
entry's predecessor list is cleared, every edge from inside the child region
to the exit is removed from the exit's predecessor list, and exactly one new
edge — with the literal-true condition, from `newBlock` to `exit` — is
created (it is the only edge added, and it is appended to the exit's
predecessors and to `newBlock`'s successors). -/
theorem rewireChildRegion_spec (g : CFG) (entry exit newBlock : BlockId)
    (childContains : BlockId → Bool)
    (hee : entry ≠ exit) (hne : newBlock ≠ entry) (hnx : newBlock ≠ exit)
    (hv : ∀ eid ∈ (g.block entry).predecessors, eid ∈ g.edges.map Prod.fst) :
    (∀ eid ∈ (g.block entry).predecessors,
      (rewireChildRegion g entry exit newBlock childContains).edge eid =
        (g.edge eid).retarget newBlock) ∧
    ((rewireChildRegion g entry exit newBlock childContains).block entry).predecessors
      = [] ∧
    ((rewireChildRegion g entry exit newBlock childContains).block
        newBlock).predecessors
      = (g.block newBlock).predecessors ++ (g.block entry).predecessors ∧
    (freshEdgeId g ∉ g.edges.map Prod.fst) ∧
    ((rewireChildRegion g entry exit newBlock childContains).edges.map Prod.fst
      = g.edges.map Prod.fst ++ [freshEdgeId g]) ∧
    ((rewireChildRegion g entry exit newBlock childContains).edge (freshEdgeId g)
      = Edge.mk newBlock exit Expr.etrue) ∧
    (((rewireChildRegion g entry exit newBlock childContains).block
        exit).predecessors
      = (g.block exit).predecessors.filter
          (fun eid => !childContains ((g.edge eid).src)) ++ [freshEdgeId g]) ∧
    (freshEdgeId g ∈ ((rewireChildRegion g entry exit newBlock
        childContains).block newBlock).successors) := by
  obtain ⟨hB1, hK1, hin, hout⟩ :=
    retargetAll_spec (g.block entry).predecessors newBlock g hv
  have hB1b : ∀ b, (retargetAll g (g.block entry).predecessors newBlock).block b
      = g.block b := by
    intro b
    show (lookupA (retargetAll g (g.block entry).predecessors newBlock).blocks b).getD
      defaultBlock = _
    rw [hB1]
    rfl
  have hsrc : ∀ eid,
      ((retargetAll g (g.block entry).predecessors newBlock).edge eid).src
        = (g.edge eid).src := by
    intro eid
    by_cases he : eid ∈ (g.block entry).predecessors
    · rw [hin eid he]; rfl
    · rw [hout eid he]
  -- names for the intermediate graphs
  set g1 := retargetAll g (g.block entry).predecessors newBlock with hg1
  set g2 := g1.setBlock newBlock
    { g1.block newBlock with
        predecessors := (g1.block newBlock).predecessors ++
          (g.block entry).predecessors } with hg2
  set g3 := g2.setBlock entry { g2.block entry with predecessors := [] } with hg3
  set g4 := g3.setBlock exit
    { g3.block exit with
        predecessors := (g3.block exit).predecessors.filter
          (fun eid => !childContains ((g3.edge eid).src)) } with hg4
  have hE3 : g3.edges = g1.edges := rfl
  have hK4 : g4.edges.map Prod.fst = g.edges.map Prod.fst := by
    show g1.edges.map Prod.fst = g.edges.map Prod.fst
    exact hK1
  have hfresh : freshEdgeId g4 = freshEdgeId g := by
    show (g4.edges.map Prod.fst).foldl max 0 + 1 = (g.edges.map Prod.fst).foldl max 0 + 1
    rw [hK4]
  set nid := freshEdgeId g4 with hnid
  set g5 : CFG := { g4 with edges := g4.edges ++ [(nid, Edge.mk newBlock exit Expr.etrue)] }
    with hg5
  set g6 := g5.setBlock exit
    { g5.block exit with predecessors := (g5.block exit).predecessors ++ [nid] } with hg6
  have hrew : rewireChildRegion g entry exit newBlock childContains =
      g6.setBlock newBlock
        { g6.block newBlock with
            successors := (g6.block newBlock).successors ++ [nid] } := rfl
  -- edge lookups in the final graph
  have hE6 : ∀ e, (g6.setBlock newBlock
      { g6.block newBlock with
          successors := (g6.block newBlock).successors ++ [nid] }).edge e = g5.edge e := by
    intro e
    rfl
  have hnotin : nid ∉ g4.edges.map Prod.fst := by
    intro hc
    exact absurd (lt_freshEdgeId_of_mem g4 nid hc) (by simp [hnid])
  have hE5old : ∀ e, e ∈ g4.edges.map Prod.fst → g5.edge e = g4.edge e := by
    intro e he
    obtain ⟨v, hvv⟩ := lookupA_some_of_mem_keys g4.edges e he
    show (lookupA (g4.edges ++ [(nid, Edge.mk newBlock exit Expr.etrue)]) e).getD
      defaultEdge = _
    rw [lookupA_append_some _ _ _ _ hvv]
    show v = (lookupA g4.edges e).getD defaultEdge
    rw [hvv]
    rfl
  have hE4 : ∀ e, g4.edge e = g1.edge e := fun _ => rfl
  have hE5new : g5.edge nid = Edge.mk newBlock exit Expr.etrue := by
    show (lookupA (g4.edges ++ [(nid, Edge.mk newBlock exit Expr.etrue)]) nid).getD
      defaultEdge = _
    rw [lookupA_append_left _ _ _ ((lookupA_none_iff _ _).mpr hnotin),
      lookupA_singleton_self]
    rfl
  refine ⟨?_, ?_, ?_, ?_, ?_, ?_, ?_, ?_⟩
  · -- retargeted incoming edges
    intro eid he
    rw [hrew, hE6, hE5old eid (by rw [hK4]; exact hv eid he), hE4]
    exact hin eid he
  · -- entry predecessor list cleared
    rw [hrew, CFG.block_setBlock_ne _ _ _ _ hne]
    rw [hg6, CFG.block_setBlock_ne _ _ _ _ (Ne.symm hee)]
    have : g5.block entry = g4.block entry := rfl
    rw [this, hg4, CFG.block_setBlock_ne _ _ _ _ (Ne.symm hee)]
    rw [hg3, CFG.block_setBlock_self]
  · -- newBlock's collected predecessors
    rw [hrew, CFG.block_setBlock_self]
    show (g6.block newBlock).predecessors = _
    rw [hg6, CFG.block_setBlock_ne _ _ _ _ (Ne.symm hnx)]
    have : g5.block newBlock = g4.block newBlock := rfl
    rw [this, hg4, CFG.block_setBlock_ne _ _ _ _ (Ne.symm hnx)]
    rw [hg3, CFG.block_setBlock_ne _ _ _ _ (Ne.symm hne)]
    rw [hg2, CFG.block_setBlock_self]
    show (g1.block newBlock).predecessors ++ _ = _
    rw [hB1b]
  · -- the new edge id is fresh
    intro hc
    exact absurd (lt_freshEdgeId_of_mem g (freshEdgeId g) hc) (lt_irrefl _)
  · -- exactly one edge is added
    rw [hrew]
    show g5.edges.map Prod.fst = _
    rw [hg5]
    show (g4.edges ++ [(nid, Edge.mk newBlock exit Expr.etrue)]).map Prod.fst = _
    have hf4 : freshEdgeId g4 = freshEdgeId g := by rw [← hnid]; exact hfresh
    rw [List.map_append, hK4, hnid, hf4]
    rfl
  · -- and it is the unconditional newBlock → exit edge
    rw [hrew, ← hfresh, hE6]
    exact hE5new
  · -- exit's predecessors: internal ones dropped, the new edge appended
    rw [hrew, CFG.block_setBlock_ne _ _ _ _ hnx]
    rw [hg6, CFG.block_setBlock_self]
    have h5b : g5.block exit = g4.block exit := rfl
    rw [h5b, hg4, CFG.block_setBlock_self]
    show ((g3.block exit).predecessors.filter
        (fun eid => !childContains ((g3.edge eid).src))) ++ [nid] = _
    have h3b : g3.block exit = g2.block exit := by
      rw [hg3, CFG.block_setBlock_ne _ _ _ _ hee]
    have h2b : g2.block exit = g1.block exit := by
      rw [hg2, CFG.block_setBlock_ne _ _ _ _ hnx]
    rw [h3b, h2b, hB1b, hfresh]
    congr 1
    apply List.filter_congr
    intro eid _
    have hseq : (g3.edge eid).src = (g.edge eid).src := by
      show (g1.edge eid).src = _
      exact hsrc eid
    rw [hseq]
  · -- the new edge is appended to newBlock's successors
    rw [hrew, CFG.block_setBlock_self]
    show freshEdgeId g ∈ (g6.block newBlock).successors ++ [nid]
    rw [show nid = freshEdgeId g from hfresh]
    simp

/-- A child region {0, 1} with entry 0 (predecessor edge 0 from outside
block 3), internal exit edge 2 to exit block 2, collapsed into synthetic
block 5. -/
def rG : CFG :=
  { blocks := [(0, ⟨[0], [1], none⟩), (1, ⟨[1], [2], none⟩), (2, ⟨[2], [], none⟩),
               (3, ⟨[], [0], none⟩), (5, ⟨[], [], none⟩)],
    edges := [(0, ⟨3, 0, Expr.atom 1⟩), (1, ⟨0, 1, Expr.etrue⟩),
              (2, ⟨1, 2, Expr.etrue⟩)] }

/-- Witness for C6 on `rG`. -/
theorem rewireChildRegion_spec_witness :
    (∀ eid ∈ (rG.block 0).predecessors,
      (rewireChildRegion rG 0 2 5 (fun b => b == 0 || b == 1)).edge eid =
        (rG.edge eid).retarget 5) ∧
    ((rewireChildRegion rG 0 2 5 (fun b => b == 0 || b == 1)).block 0).predecessors
      = [] ∧
    ((rewireChildRegion rG 0 2 5 (fun b => b == 0 || b == 1)).block 5).predecessors
      = (rG.block 5).predecessors ++ (rG.block 0).predecessors ∧
    (freshEdgeId rG ∉ rG.edges.map Prod.fst) ∧
    ((rewireChildRegion rG 0 2 5 (fun b => b == 0 || b == 1)).edges.map Prod.fst
      = rG.edges.map Prod.fst ++ [freshEdgeId rG]) ∧
    ((rewireChildRegion rG 0 2 5 (fun b => b == 0 || b == 1)).edge (freshEdgeId rG)
      = Edge.mk 5 2 Expr.etrue) ∧
    (((rewireChildRegion rG 0 2 5 (fun b => b == 0 || b == 1)).block 2).predecessors
      = (rG.block 2).predecessors.filter
          (fun eid => !(fun b => b == 0 || b == 1) ((rG.edge eid).src)) ++
        [freshEdgeId rG]) ∧
    (freshEdgeId rG ∈ ((rewireChildRegion rG 0 2 5
        (fun b => b == 0 || b == 1)).block 5).successors) :=
  rewireChildRegion_spec rG 0 2 5 (fun b => b == 0 || b == 1)
    (by decide) (by decide) (by decide) (by decide)

/-! ## `AstBackEnd::runOnModule` / `runOnFunction` (lines 378-446) and C9 -/

/-- The salient attributes of an `llvm::Function` for the driver. Names are
modelled as naturals carrying the lexicographic order of the actual
function names (the comparator only consumes their ordering). -/
structure Fn where
  name : Nat
  virtualAddress : Option Nat
  isPrototype : Bool
deriving DecidableEq, Repr

/-- A node of the driver's `outputNodes` list: the function and the
statement tree attached by `setBody` (`none` before any body is set). -/
structure FunctionNode where
  fn : Fn
  body : Option Stmt

/-- `getVirtualAddress` (lines 49-56): the metadata address, or 0. -/
def getVirtualAddress (node : FunctionNode) : Nat :=
  node.fn.virtualAddress.getD 0

/-- `AstBackEnd::runOnFunction` (lines 420-446), restricted to its effect on
`outputNodes`: it emplaces a NEW `FunctionNode` for `fn` (line 423) and
attaches the structurized body to that new node (line 445); `body` abstracts
the statement the structurizer produces. -/
def runOnFunction (nodes : List FunctionNode) (fn : Fn) (body : Stmt) :
    List FunctionNode :=
  nodes ++ [⟨fn, some body⟩]

/-- The sort comparator of lines 393-409: by virtual address, ties broken by
function name. -/
def nodeLt (a b : FunctionNode) : Bool :=
  decide (getVirtualAddress a < getVirtualAddress b) ||
    (getVirtualAddress a == getVirtualAddress b && decide (a.fn.name < b.fn.name))

/-- `std::sort` with `nodeLt`, modelled as insertion sort (a deterministic
refinement: `std::sort` specifies only the resulting order, not which
permutation of equivalent elements is chosen). -/
def insertNode (a : FunctionNode) : List FunctionNode → List FunctionNode
  | [] => [a]
  | b :: rest => if nodeLt b a then b :: insertNode a rest else a :: b :: rest

def sortNodes : List FunctionNode → List FunctionNode
  | [] => []
  | a :: rest => insertNode a (sortNodes rest)

/-- `AstBackEnd::runOnModule` (lines 378-418), restricted to `outputNodes`:
for every function of the module a `FunctionNode` is emplaced (line 384);
for a non-prototype function `runOnFunction` is then invoked — which
emplaces a second node and attaches the body to it (lines 423, 445) — and
finally the list is sorted with the comparator. `structurize` abstracts the
per-function statement tree. -/
def runOnModule (m : List Fn) (structurize : Fn → Stmt) : List FunctionNode :=
  sortNodes (m.foldl
    (fun nodes fn =>
      let nodes := nodes ++ [⟨fn, none⟩]
      if fn.isPrototype then nodes else runOnFunction nodes fn (structurize fn))
    [])

def fEx : Fn := ⟨7, some 4096, false⟩

/-- C9 fails on the code: for a module with a single non-prototype function,
TWO function-output nodes are produced — `runOnModule` emplaces one at line
384 (on which no body is ever set, even though `output` is pointed at it)
and `runOnFunction` emplaces another at line 423 which receives the
structurized body — whereas the spec calls for exactly one node per
function, carrying its statement tree. -/
theorem runOnModule_duplicates_function_nodes :
    (runOnModule [fEx] (fun _ => Stmt.seq [])).length = 2 ∧
    (runOnModule [fEx] (fun _ => Stmt.seq [])).map (fun node => node.fn.name)
      = [7, 7] ∧
    (runOnModule [fEx] (fun _ => Stmt.seq [])).map (fun node => node.body.isSome)
      = [false, true] :=
  ⟨by decide, by decide, by decide⟩

/-! ## `ensureSingleEntrySingleExitCycles` (lines 58-149), C5 and C7 -/

/-- The per-SCC edge bookkeeping of lines 72-95: entry/exit node sets
(`SmallPtrSet`, modelled as first-occurrence-deduplicated lists) and the
entering/exiting edge vectors. -/
structure SccCollect where
  entryNodes : List BlockId
  exitNodes : List BlockId
  enteringEdges : List EdgeId
  exitingEdges : List EdgeId

/-- Lines 79-85: a predecessor edge whose source lies outside the SCC is an
entering edge; its destination joins the entry-node set. -/
def collectPredStep (g : CFG) (scc : List BlockId) (acc : SccCollect)
    (eid : EdgeId) : SccCollect :=
  if scc.contains (g.edge eid).src then acc
  else { acc with
           entryNodes := insertUnique acc.entryNodes (g.edge eid).dst,
           enteringEdges := acc.enteringEdges ++ [eid] }

/-- Lines 87-94: a successor edge whose destination lies outside the SCC is
an exiting edge; its destination joins the exit-node set. -/
def collectSuccStep (g : CFG) (scc : List BlockId) (acc : SccCollect)
    (eid : EdgeId) : SccCollect :=
  if scc.contains (g.edge eid).dst then acc
  else { acc with
           exitNodes := insertUnique acc.exitNodes (g.edge eid).dst,
           exitingEdges := acc.exitingEdges ++ [eid] }

def collectBlockStep (g : CFG) (scc : List BlockId) (acc : SccCollect)
    (bb : BlockId) : SccCollect :=
  (g.block bb).successors.foldl (collectSuccStep g scc)
    ((g.block bb).predecessors.foldl (collectPredStep g scc) acc)

def collectSccEdges (g : CFG) (scc : List BlockId) : SccCollect :=
  scc.foldl (collectBlockStep g scc) ⟨[], [], [], []⟩

/-- The explicit-stack DFS of lines 102-135: it walks the SCC from
`scc.front()` and, for every traversed edge whose destination was already
visited, adds the edge to the entering-edge set and its destination to the
entry-node set (a back-edge re-enters the loop). Each iteration pops an
exhausted frame or advances the top iterator; `fuel` bounds the iteration
count and is chosen (in `sccEnteringInfo`) large enough never to run out. -/
def dfsBackEdges (g : CFG) (scc : List BlockId) :
    Nat → List BlockId → List (List EdgeId) → List EdgeId → List BlockId →
    List EdgeId × List BlockId
  | 0, _, _, enteringSet, entryNodes => (enteringSet, entryNodes)
  | _ + 1, _, [], enteringSet, entryNodes => (enteringSet, entryNodes)
  | fuel + 1, visited, [] :: stack, enteringSet, entryNodes =>
      dfsBackEdges g scc fuel visited stack enteringSet entryNodes
  | fuel + 1, visited, (eid :: more) :: stack, enteringSet, entryNodes =>
      let succ := (g.edge eid).dst
      if visited.contains succ then
        dfsBackEdges g scc fuel visited (more :: stack)
          (insertUnique enteringSet eid) (insertUnique entryNodes succ)
      else if scc.contains succ then
        dfsBackEdges g scc fuel (visited ++ [succ])
          ((g.block succ).successors :: more :: stack) enteringSet entryNodes
      else
        dfsBackEdges g scc fuel visited (more :: stack) enteringSet entryNodes

def dfsFuel (g : CFG) (scc : List BlockId) : Nat :=
  g.blocks.foldl (fun a p => a + p.2.successors.length) 0 + g.blocks.length +
    scc.length + 2

/-- `scc_iterator::hasLoop()` (LLVM ADT, used at line 64): trivially true
for a multi-node SCC; a single-node SCC has a loop exactly when the node has
an edge to itself. -/
def sccHasLoop (g : CFG) (scc : List BlockId) : Bool :=
  1 < scc.length ||
    scc.any (fun b => (g.block b).successors.any (fun e => (g.edge e).dst == b))

/-- Retarget edge `eid` to the redirector `r`, keeping source and
condition. -/
def rsRetarget (r : BlockId) (eid : EdgeId) (g : CFG) : CFG :=
  g.setEdge eid (Edge.mk (g.edge eid).src r (g.edge eid).edgeCondition)

/-- Record the retargeted edge as a predecessor of the redirector. -/
def rsAddPred (r : BlockId) (eid : EdgeId) (g : CFG) : CFG :=
  g.setBlock r
    { g.block r with predecessors := (g.block r).predecessors ++ [eid] }

/-- Drop the retargeted edge from its original destination's predecessors. -/
def rsDropPred (d : BlockId) (eid : EdgeId) (g : CFG) : CFG :=
  g.setBlock d
    { g.block d with
        predecessors := (g.block d).predecessors.filter (fun x => x != eid) }

/-- Allocate the forwarding edge `nid : r → d` with condition `cond`. -/
def rsAddEdge (nid : EdgeId) (r d : BlockId) (cond : Expr) (g : CFG) : CFG :=
  { g with edges := g.edges ++ [(nid, Edge.mk r d cond)] }

def rsAddSucc (r : BlockId) (nid : EdgeId) (g : CFG) : CFG :=
  g.setBlock r
    { g.block r with successors := (g.block r).successors ++ [nid] }

def rsAddPredNew (d : BlockId) (nid : EdgeId) (g : CFG) : CFG :=
  g.setBlock d
    { g.block d with predecessors := (g.block d).predecessors ++ [nid] }

/-- Create the forwarding edge for one redirected edge and hook it up. -/
def rsFinish (r d : BlockId) (cond : Expr) (g : CFG) : CFG :=
  rsAddPredNew d (freshEdgeId g)
    (rsAddSucc r (freshEdgeId g) (rsAddEdge (freshEdgeId g) r d cond g))

/-- One step of the redirector construction: retarget `eid` to `r` (tracking
the predecessor bookkeeping of both `r` and the original destination), then
give `r` a forwarding edge to the edge's original destination under its
original condition. -/
def redirectStep (r : BlockId) (g : CFG) (eid : EdgeId) : CFG :=
  rsFinish r (g.edge eid).dst (g.edge eid).edgeCondition
    (rsDropPred (g.edge eid).dst eid (rsAddPred r eid (rsRetarget r eid g)))

/-- Modelled from the spec: `PreAstContext::createRedirectorBlock` is
declared in this repository's `pre_ast_cfg.h` and called at lines 141 and
146, but its definition is not among the provided sources. Per the spec
(section 4.1): a synthetic redirector block is created, every listed edge is
retargeted to point at it, and the redirector gains outgoing edges to the
original destinations, preserving each edge's original condition. -/
def createRedirectorBlock (g : CFG) (edgesToRedirect : List EdgeId) :
    CFG × BlockId :=
  let r := freshBlockId g
  let g0 : CFG := { g with blocks := g.blocks ++ [(r, defaultBlock)] }
  (edgesToRedirect.foldl (redirectStep r) g0, r)

/-- Lines 102-135 for one SCC: the entering-edge set (the external entering
edges collected into a `SmallPtrSet`, plus DFS back-edges) and the
entry-node set. -/
def sccEnteringInfo (g : CFG) (scc : List BlockId) : List EdgeId × List BlockId :=
  let collect := collectSccEdges g scc
  match scc with
  | [] => (dedupL collect.enteringEdges, collect.entryNodes)
  | front :: _ =>
      dfsBackEdges g scc (dfsFuel g scc) [front] [(g.block front).successors]
        (dedupL collect.enteringEdges) collect.entryNodes

/-- Lines 70-148 for one SCC: a redirector for the entering edges when there
is more than one entry node, then a redirector for the exiting edges when
there is more than one exit node. -/
def processScc (g : CFG) (scc : List BlockId) : CFG :=
  let collect := collectSccEdges g scc
  let info := sccEnteringInfo g scc
  let g1 := if 1 < info.2.length then (createRedirectorBlock g info.1).1 else g
  if 1 < collect.exitNodes.length then
    (createRedirectorBlock g1 collect.exitingEdges).1
  else g1

/-- `ensureSingleEntrySingleExitCycles` (lines 58-149). The SCC enumeration
itself is `llvm::scc_begin` (an external library); the SCC list is therefore
a parameter, filtered — as line 64 does — by `hasLoop()`. -/
def ensureSingleEntrySingleExitCycles (g : CFG) (allSccs : List (List BlockId)) :
    CFG :=
  (allSccs.filter (fun scc => sccHasLoop g scc)).foldl processScc g

/-- A single block with a self-edge (and an external entry and exit). -/
def selfLoopG : CFG :=
  { blocks := [(0, ⟨[0, 1], [0, 2], none⟩), (1, ⟨[], [1], none⟩),
               (2, ⟨[2], [], none⟩)],
    edges := [(0, ⟨0, 0, Expr.etrue⟩), (1, ⟨1, 0, Expr.atom 3⟩),
              (2, ⟨0, 2, Expr.atom 4⟩)] }


/-! ## Properties of one redirector step -/

theorem mem_keys_setA {β : Type} (l : List (Nat × β)) (k k' : Nat) (v : β)
    (h : k ∈ l.map Prod.fst) : k ∈ (setA l k' v).map Prod.fst := by
  induction l with
  | nil => cases h
  | cons p rest ih =>
      obtain ⟨k0, v0⟩ := p
      simp only [List.map_cons, List.mem_cons] at h
      by_cases h0 : k0 = k'
      · subst h0
        have hset : setA ((k0, v0) :: rest) k0 v = (k0, v) :: rest := by
          simp [setA]
        rw [hset]
        simp only [List.map_cons, List.mem_cons]
        exact h
      · have hset : setA ((k0, v0) :: rest) k' v = (k0, v0) :: setA rest k' v := by
          simp [setA, h0]
        rw [hset]
        simp only [List.map_cons, List.mem_cons]
        rcases h with h1 | h1
        · exact Or.inl h1
        · exact Or.inr (ih h1)

theorem freshEdgeId_congr (g1 g2 : CFG)
    (h : g1.edges.map Prod.fst = g2.edges.map Prod.fst) :
    freshEdgeId g1 = freshEdgeId g2 := by
  unfold freshEdgeId
  rw [h]

theorem Block.succ_set_preds (blk : Block) (x : List EdgeId) :
    ({ blk with predecessors := x } : Block).successors = blk.successors := rfl

theorem Block.preds_set_preds (blk : Block) (x : List EdgeId) :
    ({ blk with predecessors := x } : Block).predecessors = x := rfl

theorem Block.succ_set_succ (blk : Block) (x : List EdgeId) :
    ({ blk with successors := x } : Block).successors = x := rfl

/-- Successor lists through each bookkeeping operation. -/
theorem rsRetarget_block (r : BlockId) (eid : EdgeId) (g : CFG) (b : BlockId) :
    (rsRetarget r eid g).block b = g.block b := rfl

theorem rsAddPred_succ (r : BlockId) (eid : EdgeId) (g : CFG) (b : BlockId) :
    ((rsAddPred r eid g).block b).successors = (g.block b).successors := by
  unfold rsAddPred
  by_cases hb : r = b
  · subst hb
    rw [CFG.block_setBlock_self, Block.succ_set_preds]
  · rw [CFG.block_setBlock_ne _ _ _ _ hb]

theorem rsDropPred_succ (d : BlockId) (eid : EdgeId) (g : CFG) (b : BlockId) :
    ((rsDropPred d eid g).block b).successors = (g.block b).successors := by
  unfold rsDropPred
  by_cases hb : d = b
  · subst hb
    rw [CFG.block_setBlock_self, Block.succ_set_preds]
  · rw [CFG.block_setBlock_ne _ _ _ _ hb]

theorem rsAddEdge_block (nid : EdgeId) (r d : BlockId) (cond : Expr) (g : CFG)
    (b : BlockId) : ((rsAddEdge nid r d cond g).block b) = g.block b := rfl

theorem rsAddSucc_succ_self (r : BlockId) (nid : EdgeId) (g : CFG) :
    ((rsAddSucc r nid g).block r).successors = (g.block r).successors ++ [nid] := by
  unfold rsAddSucc
  rw [CFG.block_setBlock_self, Block.succ_set_succ]

theorem rsAddSucc_succ_ne (r : BlockId) (nid : EdgeId) (g : CFG) (b : BlockId)
    (h : r ≠ b) :
    ((rsAddSucc r nid g).block b).successors = (g.block b).successors := by
  unfold rsAddSucc
  rw [CFG.block_setBlock_ne _ _ _ _ h]

theorem rsAddPredNew_succ (d : BlockId) (nid : EdgeId) (g : CFG) (b : BlockId) :
    ((rsAddPredNew d nid g).block b).successors = (g.block b).successors := by
  unfold rsAddPredNew
  by_cases hb : d = b
  · subst hb
    rw [CFG.block_setBlock_self, Block.succ_set_preds]
  · rw [CFG.block_setBlock_ne _ _ _ _ hb]

/-- Edge collections through each operation. -/
theorem rsRetarget_keysE (r : BlockId) (eid : EdgeId) (g : CFG)
    (hv : eid ∈ g.edges.map Prod.fst) :
    (rsRetarget r eid g).edges.map Prod.fst = g.edges.map Prod.fst := by
  unfold rsRetarget CFG.setEdge
  exact keys_setA_of_mem _ _ _ hv

theorem rsAddPred_edges (r : BlockId) (eid : EdgeId) (g : CFG) :
    (rsAddPred r eid g).edges = g.edges := rfl

theorem rsDropPred_edges (d : BlockId) (eid : EdgeId) (g : CFG) :
    (rsDropPred d eid g).edges = g.edges := rfl

theorem rsAddEdge_keysE (nid : EdgeId) (r d : BlockId) (cond : Expr) (g : CFG) :
    (rsAddEdge nid r d cond g).edges.map Prod.fst = g.edges.map Prod.fst ++ [nid] := by
  unfold rsAddEdge
  simp

theorem rsAddSucc_edges (r : BlockId) (nid : EdgeId) (g : CFG) :
    (rsAddSucc r nid g).edges = g.edges := rfl

theorem rsAddPredNew_edges (d : BlockId) (nid : EdgeId) (g : CFG) :
    (rsAddPredNew d nid g).edges = g.edges := rfl

theorem rsRetarget_edge_self (r : BlockId) (eid : EdgeId) (g : CFG) :
    (rsRetarget r eid g).edge eid =
      Edge.mk (g.edge eid).src r (g.edge eid).edgeCondition := by
  unfold rsRetarget
  rw [CFG.edge_setEdge_self]

theorem rsRetarget_edge_ne (r : BlockId) (eid k : EdgeId) (g : CFG) (h : eid ≠ k) :
    (rsRetarget r eid g).edge k = g.edge k := by
  unfold rsRetarget
  rw [CFG.edge_setEdge_ne _ _ _ _ h]

theorem rsAddEdge_edge_old (nid : EdgeId) (r d : BlockId) (cond : Expr) (g : CFG)
    (k : EdgeId) (hk : k ∈ g.edges.map Prod.fst) :
    (rsAddEdge nid r d cond g).edge k = g.edge k := by
  obtain ⟨v, hv⟩ := lookupA_some_of_mem_keys g.edges k hk
  unfold rsAddEdge CFG.edge
  simp only
  rw [lookupA_append_some _ _ _ _ hv, hv]

theorem rsAddEdge_edge_new (nid : EdgeId) (r d : BlockId) (cond : Expr) (g : CFG)
    (hnid : nid ∉ g.edges.map Prod.fst) :
    (rsAddEdge nid r d cond g).edge nid = Edge.mk r d cond := by
  unfold rsAddEdge CFG.edge
  simp only
  rw [lookupA_append_left _ _ _ ((lookupA_none_iff _ _).mpr hnid),
    lookupA_singleton_self]
  rfl

theorem freshEdgeId_not_mem (g : CFG) : freshEdgeId g ∉ g.edges.map Prod.fst :=
  fun hc => absurd (lt_freshEdgeId_of_mem g _ hc) (lt_irrefl _)

theorem rsAddSucc_edge (r : BlockId) (nid : EdgeId) (g : CFG) (k : EdgeId) :
    (rsAddSucc r nid g).edge k = g.edge k := rfl

theorem rsAddPredNew_edge (d : BlockId) (nid : EdgeId) (g : CFG) (k : EdgeId) :
    (rsAddPredNew d nid g).edge k = g.edge k := rfl

theorem rsAddPred_edge (r : BlockId) (eid : EdgeId) (g : CFG) (k : EdgeId) :
    (rsAddPred r eid g).edge k = g.edge k := rfl

theorem rsDropPred_edge (d : BlockId) (eid : EdgeId) (g : CFG) (k : EdgeId) :
    (rsDropPred d eid g).edge k = g.edge k := rfl

/-- The keys of the pre-forwarding graph inside one `redirectStep`. -/
theorem redirectStep_inner_keys (r : BlockId) (g : CFG) (eid : EdgeId)
    (hv : eid ∈ g.edges.map Prod.fst) :
    (rsDropPred (g.edge eid).dst eid (rsAddPred r eid (rsRetarget r eid g))).edges.map
      Prod.fst = g.edges.map Prod.fst := by
  rw [rsDropPred_edges, rsAddPred_edges]
  exact rsRetarget_keysE r eid g hv

theorem redirectStep_inner_fresh (r : BlockId) (g : CFG) (eid : EdgeId)
    (hv : eid ∈ g.edges.map Prod.fst) :
    freshEdgeId (rsDropPred (g.edge eid).dst eid (rsAddPred r eid (rsRetarget r eid g)))
      = freshEdgeId g :=
  freshEdgeId_congr _ _ (redirectStep_inner_keys r g eid hv)

theorem redirectStep_keysE (r : BlockId) (g : CFG) (eid : EdgeId)
    (hv : eid ∈ g.edges.map Prod.fst) :
    (redirectStep r g eid).edges.map Prod.fst =
      g.edges.map Prod.fst ++ [freshEdgeId g] := by
  unfold redirectStep rsFinish
  rw [rsAddPredNew_edges, rsAddSucc_edges, rsAddEdge_keysE,
    redirectStep_inner_keys r g eid hv, redirectStep_inner_fresh r g eid hv]

theorem redirectStep_edge_self (r : BlockId) (g : CFG) (eid : EdgeId)
    (hv : eid ∈ g.edges.map Prod.fst) :
    (redirectStep r g eid).edge eid =
      Edge.mk (g.edge eid).src r (g.edge eid).edgeCondition := by
  unfold redirectStep rsFinish
  rw [rsAddPredNew_edge, rsAddSucc_edge,
    rsAddEdge_edge_old _ _ _ _ _ eid (by
      rw [redirectStep_inner_keys r g eid hv]; exact hv),
    rsDropPred_edge, rsAddPred_edge, rsRetarget_edge_self]

theorem redirectStep_edge_old (r : BlockId) (g : CFG) (eid k : EdgeId)
    (hv : eid ∈ g.edges.map Prod.fst) (hk : k ∈ g.edges.map Prod.fst)
    (hne : eid ≠ k) :
    (redirectStep r g eid).edge k = g.edge k := by
  unfold redirectStep rsFinish
  rw [rsAddPredNew_edge, rsAddSucc_edge,
    rsAddEdge_edge_old _ _ _ _ _ k (by
      rw [redirectStep_inner_keys r g eid hv]; exact hk),
    rsDropPred_edge, rsAddPred_edge, rsRetarget_edge_ne _ _ _ _ hne]

theorem redirectStep_edge_new (r : BlockId) (g : CFG) (eid : EdgeId)
    (hv : eid ∈ g.edges.map Prod.fst) :
    (redirectStep r g eid).edge (freshEdgeId g) =
      Edge.mk r (g.edge eid).dst (g.edge eid).edgeCondition := by
  unfold redirectStep rsFinish
  rw [rsAddPredNew_edge, rsAddSucc_edge, redirectStep_inner_fresh r g eid hv,
    show freshEdgeId g = freshEdgeId (rsDropPred (g.edge eid).dst eid
      (rsAddPred r eid (rsRetarget r eid g))) from
        (redirectStep_inner_fresh r g eid hv).symm,
    rsAddEdge_edge_new]
  exact fun hc => freshEdgeId_not_mem _ hc

theorem redirectStep_succ_ne (r : BlockId) (g : CFG) (eid : EdgeId) (b : BlockId)
    (hb : r ≠ b) :
    ((redirectStep r g eid).block b).successors = (g.block b).successors := by
  unfold redirectStep rsFinish
  rw [rsAddPredNew_succ, rsAddSucc_succ_ne _ _ _ _ hb]
  show ((rsDropPred (g.edge eid).dst eid (rsAddPred r eid
    (rsRetarget r eid g))).block b).successors = _
  rw [rsDropPred_succ, rsAddPred_succ, rsRetarget_block]

theorem redirectStep_succ_self (r : BlockId) (g : CFG) (eid : EdgeId)
    (hv : eid ∈ g.edges.map Prod.fst) :
    ((redirectStep r g eid).block r).successors =
      (g.block r).successors ++ [freshEdgeId g] := by
  unfold redirectStep rsFinish
  rw [rsAddPredNew_succ, rsAddSucc_succ_self, redirectStep_inner_fresh r g eid hv]
  show ((rsDropPred (g.edge eid).dst eid (rsAddPred r eid
    (rsRetarget r eid g))).block r).successors ++ [freshEdgeId g] = _
  rw [rsDropPred_succ, rsAddPred_succ, rsRetarget_block]

theorem redirectStep_keysB_mono (r : BlockId) (g : CFG) (eid : EdgeId)
    (k : BlockId) (hk : k ∈ g.blocks.map Prod.fst) :
    k ∈ (redirectStep r g eid).blocks.map Prod.fst := by
  unfold redirectStep rsFinish rsAddPredNew rsAddSucc rsAddEdge rsDropPred
    rsAddPred rsRetarget CFG.setBlock CFG.setEdge
  simp only
  apply mem_keys_setA
  apply mem_keys_setA
  apply mem_keys_setA
  apply mem_keys_setA
  exact hk

theorem rsRetarget_keysE_mono (r : BlockId) (eid : EdgeId) (g : CFG) (k : EdgeId)
    (hk : k ∈ g.edges.map Prod.fst) :
    k ∈ (rsRetarget r eid g).edges.map Prod.fst := by
  unfold rsRetarget CFG.setEdge
  exact mem_keys_setA _ _ _ _ hk

theorem redirectStep_edge_old' (r : BlockId) (g : CFG) (eid k : EdgeId)
    (hk : k ∈ g.edges.map Prod.fst) (hne : eid ≠ k) :
    (redirectStep r g eid).edge k = g.edge k := by
  unfold redirectStep rsFinish
  rw [rsAddPredNew_edge, rsAddSucc_edge,
    rsAddEdge_edge_old _ _ _ _ _ k (by
      rw [rsDropPred_edges, rsAddPred_edges]
      exact rsRetarget_keysE_mono r eid g k hk),
    rsDropPred_edge, rsAddPred_edge, rsRetarget_edge_ne _ _ _ _ hne]

theorem redirectStep_keysE_mono (r : BlockId) (g : CFG) (eid k : EdgeId)
    (hk : k ∈ g.edges.map Prod.fst) :
    k ∈ (redirectStep r g eid).edges.map Prod.fst := by
  unfold redirectStep rsFinish rsAddPredNew rsAddSucc CFG.setBlock
  show k ∈ (rsAddEdge _ _ _ _ _).edges.map Prod.fst
  rw [rsAddEdge_keysE]
  refine List.mem_append_left _ ?_
  rw [rsDropPred_edges, rsAddPred_edges]
  exact rsRetarget_keysE_mono r eid g k hk

/-- The conclusions of the redirect fold that need no distinctness: edges
outside the list keep their bindings, successor lists of blocks other than
the redirector are untouched, and edge keys are preserved. -/
theorem redirectFold_preserve (r : BlockId) (es : List EdgeId) (g : CFG) :
    (∀ k, k ∈ g.edges.map Prod.fst → k ∉ es →
      (es.foldl (redirectStep r) g).edge k = g.edge k) ∧
    (∀ b, r ≠ b → ((es.foldl (redirectStep r) g).block b).successors =
      (g.block b).successors) ∧
    (∀ k, k ∈ g.edges.map Prod.fst →
      k ∈ (es.foldl (redirectStep r) g).edges.map Prod.fst) := by
  induction es generalizing g with
  | nil => exact ⟨fun _ hk _ => rfl, fun _ _ => rfl, fun _ hk => hk⟩
  | cons e rest ih =>
      obtain ⟨ih1, ih2, ih3⟩ := ih (redirectStep r g e)
      rw [List.foldl_cons]
      refine ⟨?_, ?_, ?_⟩
      · intro k hk hkne
        have hek : e ≠ k := fun hc => hkne (by simp [hc])
        have hkr : k ∉ rest := fun hc => hkne (by simp [hc])
        rw [ih1 k (redirectStep_keysE_mono r g e k hk) hkr,
          redirectStep_edge_old' r g e k hk hek]
      · intro b hb
        rw [ih2 b hb, redirectStep_succ_ne r g e b hb]
      · intro k hk
        exact ih3 k (redirectStep_keysE_mono r g e k hk)

/-- The full characterization of the redirect fold over a duplicate-free
list of valid edge ids: every listed edge is retargeted to `r` keeping
source and condition, and for each a fresh forwarding edge from `r` to the
original destination under the original condition is recorded among `r`'s
successors. -/
theorem redirectFold_spec (r : BlockId) (es : List EdgeId) (g : CFG)
    (hvE : ∀ eid ∈ es, eid ∈ g.edges.map Prod.fst) (hnd : es.Nodup) :
    (∀ eid ∈ es, (es.foldl (redirectStep r) g).edge eid =
      Edge.mk (g.edge eid).src r (g.edge eid).edgeCondition) ∧
    (∀ eid ∈ es, ∃ nid, nid ∈ ((es.foldl (redirectStep r) g).block r).successors ∧
      nid ∈ (es.foldl (redirectStep r) g).edges.map Prod.fst ∧
      nid ∉ g.edges.map Prod.fst ∧
      (es.foldl (redirectStep r) g).edge nid =
        Edge.mk r (g.edge eid).dst (g.edge eid).edgeCondition) ∧
    (∀ nid, nid ∈ (g.block r).successors →
      nid ∈ ((es.foldl (redirectStep r) g).block r).successors) ∧
    (∀ k ∈ g.blocks.map Prod.fst, k ∈ (es.foldl (redirectStep r) g).blocks.map Prod.fst) := by
  induction es generalizing g with
  | nil =>
      refine ⟨?_, ?_, fun _ h => h, fun _ hk => hk⟩
      · intro _ h; cases h
      · intro _ h; cases h
  | cons e rest ih =>
      have hve : e ∈ g.edges.map Prod.fst := hvE e (by simp)
      have hvrest : ∀ eid ∈ rest, eid ∈ (redirectStep r g e).edges.map Prod.fst :=
        fun eid he => redirectStep_keysE_mono r g e eid (hvE eid (by simp [he]))
      have hner : e ∉ rest := (List.nodup_cons.mp hnd).1
      obtain ⟨ih1, ih2, ih3, ih4⟩ := ih (redirectStep r g e) hvrest
        (List.nodup_cons.mp hnd).2
      obtain ⟨pr1, pr2, pr3⟩ := redirectFold_preserve r rest (redirectStep r g e)
      rw [List.foldl_cons]
      refine ⟨?_, ?_, ?_, ?_⟩
      · intro eid he
        rcases List.mem_cons.mp he with he1 | he1
        · subst he1
          rw [pr1 eid (redirectStep_keysE_mono r g eid eid hve) hner,
            redirectStep_edge_self r g eid hve]
        · have hne : e ≠ eid := fun hc => hner (hc ▸ he1)
          rw [ih1 eid he1, redirectStep_edge_old r g e eid hve
            (hvE eid (by simp [he1])) hne]
      · intro eid he
        rcases List.mem_cons.mp he with he1 | he1
        · subst he1
          refine ⟨freshEdgeId g, ?_, ?_, freshEdgeId_not_mem g, ?_⟩
          · apply ih3
            rw [redirectStep_succ_self r g eid hve]
            simp
          · apply pr3
            rw [redirectStep_keysE r g eid hve]
            simp
          · have hmem : freshEdgeId g ∈ (redirectStep r g eid).edges.map Prod.fst := by
              rw [redirectStep_keysE r g eid hve]
              simp
            have hnr : freshEdgeId g ∉ rest := fun hc =>
              freshEdgeId_not_mem g (hvE _ (by simp [hc]))
            rw [pr1 _ hmem hnr, redirectStep_edge_new r g eid hve]
        · obtain ⟨nid, hn1, hn2, hn3, hn4⟩ := ih2 eid he1
          refine ⟨nid, hn1, hn2, ?_, ?_⟩
          · intro hc
            exact hn3 (redirectStep_keysE_mono r g e nid hc)
          · have hne : e ≠ eid := fun hc => hner (hc ▸ he1)
            rw [hn4, redirectStep_edge_old r g e eid hve
              (hvE eid (by simp [he1])) hne]
      · intro nid hnid
        apply ih3
        by_cases hre : r = r
        · rw [redirectStep_succ_self r g e hve]
          exact List.mem_append_left _ hnid
        · exact absurd rfl hre
      · intro k hk
        exact ih4 k (redirectStep_keysB_mono r g e k hk)

theorem freshBlockId_not_mem (g : CFG) : freshBlockId g ∉ g.blocks.map Prod.fst :=
  fun hc => absurd (lt_freshBlockId_of_mem g _ hc) (lt_irrefl _)

theorem addBlock_block (g : CFG) (r : BlockId) (b : BlockId) :
    (({ g with blocks := g.blocks ++ [(r, defaultBlock)] } : CFG).block b)
      = g.block b := by
  show (lookupA (g.blocks ++ [(r, defaultBlock)]) b).getD defaultBlock = _
  cases hl : lookupA g.blocks b with
  | some v =>
      rw [lookupA_append_some _ _ _ _ hl]
      show v = (lookupA g.blocks b).getD defaultBlock
      rw [hl]
      rfl
  | none =>
      rw [lookupA_append_left _ _ _ hl]
      show (lookupA [(r, defaultBlock)] b).getD defaultBlock
        = (lookupA g.blocks b).getD defaultBlock
      rw [hl]
      unfold lookupA
      by_cases hrb : r = b
      · rw [if_pos hrb]
        rfl
      · rw [if_neg hrb]
        rfl

/-- `createRedirectorBlock` characterized (modelled from the spec, section
4.1): the returned block `r` is fresh; every listed edge is retargeted to
`r`, keeping its source and condition; for each listed edge a fresh
forwarding edge from `r` to its original destination under its original
condition appears among `r`'s successors; all other edges and all successor
lists other than `r`'s are untouched, and keys only grow. -/
theorem createRedirectorBlock_spec (g : CFG) (es : List EdgeId)
    (hvE : ∀ eid ∈ es, eid ∈ g.edges.map Prod.fst) (hnd : es.Nodup) :
    (∀ eid ∈ es, (createRedirectorBlock g es).1.edge eid =
      Edge.mk (g.edge eid).src (createRedirectorBlock g es).2
        (g.edge eid).edgeCondition) ∧
    (∀ eid ∈ es, ∃ nid,
      nid ∈ ((createRedirectorBlock g es).1.block
        (createRedirectorBlock g es).2).successors ∧
      nid ∈ (createRedirectorBlock g es).1.edges.map Prod.fst ∧
      nid ∉ g.edges.map Prod.fst ∧
      (createRedirectorBlock g es).1.edge nid =
        Edge.mk (createRedirectorBlock g es).2 (g.edge eid).dst
          (g.edge eid).edgeCondition) ∧
    (∀ k, k ∈ g.edges.map Prod.fst → k ∉ es →
      (createRedirectorBlock g es).1.edge k = g.edge k) ∧
    (∀ b, (createRedirectorBlock g es).2 ≠ b →
      ((createRedirectorBlock g es).1.block b).successors =
        (g.block b).successors) ∧
    (∀ k, k ∈ g.edges.map Prod.fst →
      k ∈ (createRedirectorBlock g es).1.edges.map Prod.fst) ∧
    ((createRedirectorBlock g es).2 ∈
      (createRedirectorBlock g es).1.blocks.map Prod.fst) ∧
    (∀ k, k ∈ g.blocks.map Prod.fst →
      k ∈ (createRedirectorBlock g es).1.blocks.map Prod.fst) := by
  have hg0edges : ({ g with blocks := g.blocks ++ [(freshBlockId g, defaultBlock)] }
      : CFG).edges = g.edges := rfl
  have hg0edge : ∀ k, ({ g with blocks := g.blocks ++ [(freshBlockId g, defaultBlock)] }
      : CFG).edge k = g.edge k := fun _ => rfl
  have hg0keysB : ({ g with blocks := g.blocks ++ [(freshBlockId g, defaultBlock)] }
      : CFG).blocks.map Prod.fst = g.blocks.map Prod.fst ++ [freshBlockId g] := by
    simp
  have hcr : createRedirectorBlock g es =
      (es.foldl (redirectStep (freshBlockId g))
        { g with blocks := g.blocks ++ [(freshBlockId g, defaultBlock)] },
       freshBlockId g) := rfl
  obtain ⟨f1, f2, f3, f4⟩ := redirectFold_spec (freshBlockId g) es
    { g with blocks := g.blocks ++ [(freshBlockId g, defaultBlock)] }
    (fun eid he => hvE eid he) hnd
  obtain ⟨p1, p2, p3⟩ := redirectFold_preserve (freshBlockId g) es
    { g with blocks := g.blocks ++ [(freshBlockId g, defaultBlock)] }
  rw [hcr]
  refine ⟨?_, ?_, ?_, ?_, ?_, ?_, ?_⟩
  · intro eid he
    rw [f1 eid he, hg0edge]
  · intro eid he
    obtain ⟨nid, hn1, hn2, hn3, hn4⟩ := f2 eid he
    exact ⟨nid, hn1, hn2, hn3, by rw [hn4, hg0edge]⟩
  · intro k hk hkne
    rw [p1 k hk hkne, hg0edge]
  · intro b hb
    rw [p2 b hb, addBlock_block]
  · intro k hk
    exact p3 k hk
  · apply f4
    rw [hg0keysB]
    simp
  · intro k hk
    apply f4
    rw [hg0keysB]
    exact List.mem_append_left _ hk

/-! ## Invariants of the SCC edge collection and of the DFS -/

theorem insertUnique_eq_of_mem (l : List Nat) (x : Nat) (h : x ∈ l) :
    insertUnique l x = l := by
  unfold insertUnique
  rw [if_pos h]

theorem dedupL_map_dedupL (f : Nat → Nat) (l : List Nat) :
    dedupL ((dedupL l).map f) = dedupL (l.map f) := by
  induction l using List.reverseRecOn with
  | nil => rfl
  | append_singleton l x ih =>
      rw [dedupL_append_singleton, List.map_append, List.map_singleton,
        dedupL_append_singleton]
      by_cases hx : x ∈ l
      · rw [insertUnique_eq_of_mem _ _ ((mem_dedupL l x).mpr hx), ih,
          insertUnique_eq_of_mem]
        exact (mem_dedupL _ _).mpr (List.mem_map.mpr ⟨x, hx, rfl⟩)
      · rw [show insertUnique (dedupL l) x = dedupL l ++ [x] by
          unfold insertUnique
          rw [if_neg (fun hc => hx ((mem_dedupL l x).mp hc))]]
        rw [List.map_append, List.map_singleton, dedupL_append_singleton, ih]

/-- The entering-side invariants through the predecessor-edge fold. -/
theorem collectPred_fold_spec (g : CFG) (scc : List BlockId) (l : List EdgeId)
    (acc : SccCollect)
    (hl : ∀ e ∈ l, e ∈ g.edges.map Prod.fst ∧ (g.edge e).dst ∈ scc)
    (h1 : acc.entryNodes = dedupL (acc.enteringEdges.map (fun e => (g.edge e).dst)))
    (h2 : ∀ e ∈ acc.enteringEdges, e ∈ g.edges.map Prod.fst)
    (h3 : ∀ e ∈ acc.enteringEdges, (g.edge e).dst ∈ scc) :
    (l.foldl (collectPredStep g scc) acc).entryNodes =
      dedupL ((l.foldl (collectPredStep g scc) acc).enteringEdges.map
        (fun e => (g.edge e).dst)) ∧
    (∀ e ∈ (l.foldl (collectPredStep g scc) acc).enteringEdges,
      e ∈ g.edges.map Prod.fst) ∧
    (∀ e ∈ (l.foldl (collectPredStep g scc) acc).enteringEdges,
      (g.edge e).dst ∈ scc) ∧
    (l.foldl (collectPredStep g scc) acc).exitNodes = acc.exitNodes ∧
    (l.foldl (collectPredStep g scc) acc).exitingEdges = acc.exitingEdges := by
  induction l generalizing acc with
  | nil => exact ⟨h1, h2, h3, rfl, rfl⟩
  | cons e rest ih =>
      rw [List.foldl_cons]
      by_cases hc : scc.contains (g.edge e).src
      · rw [show collectPredStep g scc acc e = acc by
          unfold collectPredStep
          rw [if_pos hc]]
        exact ih acc (fun x hx => hl x (by simp [hx])) h1 h2 h3
      · rw [show collectPredStep g scc acc e =
          { acc with
              entryNodes := insertUnique acc.entryNodes (g.edge e).dst,
              enteringEdges := acc.enteringEdges ++ [e] } by
          unfold collectPredStep
          rw [if_neg hc]]
        refine ih _ (fun x hx => hl x (by simp [hx])) ?_ ?_ ?_
        · show insertUnique acc.entryNodes (g.edge e).dst = _
          rw [h1, List.map_append]
          rw [show (List.map (fun e => (g.edge e).dst) [e]) = [(g.edge e).dst] from rfl]
          rw [dedupL_append_singleton]
        · intro x hx
          rcases List.mem_append.mp hx with hx1 | hx1
          · exact h2 x hx1
          · rw [List.mem_singleton.mp hx1]
            exact (hl e (by simp)).1
        · intro x hx
          rcases List.mem_append.mp hx with hx1 | hx1
          · exact h3 x hx1
          · rw [List.mem_singleton.mp hx1]
            exact (hl e (by simp)).2

/-- The exiting-side invariants through the successor-edge fold; the
entering side is untouched. -/
theorem collectSucc_fold_spec (g : CFG) (scc : List BlockId) (l : List EdgeId)
    (acc : SccCollect)
    (hl : ∀ e ∈ l, e ∈ g.edges.map Prod.fst)
    (h4 : ∀ e ∈ acc.exitingEdges, e ∈ g.edges.map Prod.fst)
    (h5 : ∀ e ∈ acc.exitingEdges, scc.contains (g.edge e).dst = false) :
    (l.foldl (collectSuccStep g scc) acc).entryNodes = acc.entryNodes ∧
    (l.foldl (collectSuccStep g scc) acc).enteringEdges = acc.enteringEdges ∧
    (∀ e ∈ (l.foldl (collectSuccStep g scc) acc).exitingEdges,
      e ∈ g.edges.map Prod.fst) ∧
    (∀ e ∈ (l.foldl (collectSuccStep g scc) acc).exitingEdges,
      scc.contains (g.edge e).dst = false) := by
  induction l generalizing acc with
  | nil => exact ⟨rfl, rfl, h4, h5⟩
  | cons e rest ih =>
      rw [List.foldl_cons]
      by_cases hc : scc.contains (g.edge e).dst
      · rw [show collectSuccStep g scc acc e = acc by
          unfold collectSuccStep
          rw [if_pos hc]]
        exact ih acc (fun x hx => hl x (by simp [hx])) h4 h5
      · rw [show collectSuccStep g scc acc e =
          { acc with
              exitNodes := insertUnique acc.exitNodes (g.edge e).dst,
              exitingEdges := acc.exitingEdges ++ [e] } by
          unfold collectSuccStep
          rw [if_neg hc]]
        refine ih _ (fun x hx => hl x (by simp [hx])) ?_ ?_
        · intro x hx
          rcases List.mem_append.mp hx with hx1 | hx1
          · exact h4 x hx1
          · rw [List.mem_singleton.mp hx1]
            exact hl e (by simp)
        · intro x hx
          rcases List.mem_append.mp hx with hx1 | hx1
          · exact h5 x hx1
          · rw [List.mem_singleton.mp hx1]
            exact Bool.of_not_eq_true hc

/-- The collection invariants (lines 72-95): the entry-node set is exactly
the deduplicated destinations of the entering edges; entering edges point
into the SCC, exiting edges point out of it, and both are valid. -/
theorem collectSccEdges_spec (g : CFG) (scc : List BlockId)
    (hwf1 : ∀ b ∈ scc, ∀ eid ∈ (g.block b).predecessors,
      eid ∈ g.edges.map Prod.fst ∧ (g.edge eid).dst = b)
    (hwf2 : ∀ b ∈ scc, ∀ eid ∈ (g.block b).successors,
      eid ∈ g.edges.map Prod.fst) :
    (collectSccEdges g scc).entryNodes =
      dedupL ((collectSccEdges g scc).enteringEdges.map (fun e => (g.edge e).dst)) ∧
    (∀ e ∈ (collectSccEdges g scc).enteringEdges, e ∈ g.edges.map Prod.fst) ∧
    (∀ e ∈ (collectSccEdges g scc).enteringEdges, (g.edge e).dst ∈ scc) ∧
    (∀ e ∈ (collectSccEdges g scc).exitingEdges, e ∈ g.edges.map Prod.fst) ∧
    (∀ e ∈ (collectSccEdges g scc).exitingEdges,
      scc.contains (g.edge e).dst = false) := by
  have main : ∀ (l : List BlockId), (∀ b ∈ l, b ∈ scc) → ∀ acc,
      acc.entryNodes = dedupL (acc.enteringEdges.map (fun e => (g.edge e).dst)) →
      (∀ e ∈ acc.enteringEdges, e ∈ g.edges.map Prod.fst) →
      (∀ e ∈ acc.enteringEdges, (g.edge e).dst ∈ scc) →
      (∀ e ∈ acc.exitingEdges, e ∈ g.edges.map Prod.fst) →
      (∀ e ∈ acc.exitingEdges, scc.contains (g.edge e).dst = false) →
      (l.foldl (collectBlockStep g scc) acc).entryNodes =
        dedupL ((l.foldl (collectBlockStep g scc) acc).enteringEdges.map
          (fun e => (g.edge e).dst)) ∧
      (∀ e ∈ (l.foldl (collectBlockStep g scc) acc).enteringEdges,
        e ∈ g.edges.map Prod.fst) ∧
      (∀ e ∈ (l.foldl (collectBlockStep g scc) acc).enteringEdges,
        (g.edge e).dst ∈ scc) ∧
      (∀ e ∈ (l.foldl (collectBlockStep g scc) acc).exitingEdges,
        e ∈ g.edges.map Prod.fst) ∧
      (∀ e ∈ (l.foldl (collectBlockStep g scc) acc).exitingEdges,
        scc.contains (g.edge e).dst = false) := by
    intro l
    induction l with
    | nil => exact fun _ acc h1 h2 h3 h4 h5 => ⟨h1, h2, h3, h4, h5⟩
    | cons bb rest ih =>
        intro hmem acc h1 h2 h3 h4 h5
        rw [List.foldl_cons]
        have hbb : bb ∈ scc := hmem bb (by simp)
        have hpredl : ∀ e ∈ (g.block bb).predecessors,
            e ∈ g.edges.map Prod.fst ∧ (g.edge e).dst ∈ scc := by
          intro e he
          obtain ⟨hkey, hdst⟩ := hwf1 bb hbb e he
          exact ⟨hkey, hdst ▸ hbb⟩
        obtain ⟨p1, p2, p3, p4, p5⟩ :=
          collectPred_fold_spec g scc (g.block bb).predecessors acc hpredl h1 h2 h3
        obtain ⟨s1, s2, s3, s4⟩ := collectSucc_fold_spec g scc
          (g.block bb).successors _ (hwf2 bb hbb)
          (by rw [p5]; exact h4) (by rw [p5]; exact h5)
        refine ih (fun b hb => hmem b (by simp [hb])) _ ?_ ?_ ?_ s3 s4
        · show (collectBlockStep g scc acc bb).entryNodes = _
          unfold collectBlockStep
          rw [s1, s2]
          exact p1
        · show ∀ e ∈ (collectBlockStep g scc acc bb).enteringEdges, _
          unfold collectBlockStep
          rw [s2]
          exact p2
        · show ∀ e ∈ (collectBlockStep g scc acc bb).enteringEdges, _
          unfold collectBlockStep
          rw [s2]
          exact p3
  exact main scc (fun _ hb => hb) ⟨[], [], [], []⟩ rfl
    (by intro _ h; cases h) (by intro _ h; cases h)
    (by intro _ h; cases h) (by intro _ h; cases h)

theorem dfsBackEdges_cons_eq (g : CFG) (scc : List BlockId) (fuel : Nat)
    (visited : List BlockId) (eid : EdgeId) (more : List EdgeId)
    (stack : List (List EdgeId)) (S : List EdgeId) (N : List BlockId) :
    dfsBackEdges g scc (fuel + 1) visited ((eid :: more) :: stack) S N =
      if visited.contains ((g.edge eid).dst) then
        dfsBackEdges g scc fuel visited (more :: stack)
          (insertUnique S eid) (insertUnique N ((g.edge eid).dst))
      else if scc.contains ((g.edge eid).dst) then
        dfsBackEdges g scc fuel (visited ++ [(g.edge eid).dst])
          ((g.block ((g.edge eid).dst)).successors :: more :: stack) S N
      else
        dfsBackEdges g scc fuel visited (more :: stack) S N := rfl

/-- The DFS invariants: the entry-node accumulator stays the deduplicated
destination list of the entering-edge accumulator, the entering-edge
accumulator stays duplicate-free with `P` holding of each member, and every
member's destination lies in the SCC. `P` is an arbitrary property holding
of all successor edges of SCC members (instantiated with validity). -/
theorem dfsBackEdges_inv (g : CFG) (scc : List BlockId) (P : EdgeId → Prop)
    (hP : ∀ b ∈ scc, ∀ e ∈ (g.block b).successors, P e) :
    ∀ (fuel : Nat) (visited : List BlockId) (stack : List (List EdgeId))
      (S : List EdgeId) (N : List BlockId),
      N = dedupL (S.map (fun e => (g.edge e).dst)) →
      S.Nodup →
      (∀ e ∈ S, P e) →
      (∀ e ∈ S, (g.edge e).dst ∈ scc) →
      (∀ b ∈ visited, b ∈ scc) →
      (∀ f ∈ stack, ∀ e ∈ f, P e) →
      ((dfsBackEdges g scc fuel visited stack S N).2 =
        dedupL ((dfsBackEdges g scc fuel visited stack S N).1.map
          (fun e => (g.edge e).dst)) ∧
       (dfsBackEdges g scc fuel visited stack S N).1.Nodup ∧
       (∀ e ∈ (dfsBackEdges g scc fuel visited stack S N).1, P e) ∧
       (∀ e ∈ (dfsBackEdges g scc fuel visited stack S N).1,
         (g.edge e).dst ∈ scc)) := by
  intro fuel
  induction fuel with
  | zero => exact fun _ _ S N h1 h2 h3 h4 _ _ => ⟨h1, h2, h3, h4⟩
  | succ fuel ih =>
      intro visited stack S N h1 h2 h3 h4 hvis hstP
      match stack with
      | [] => exact ⟨h1, h2, h3, h4⟩
      | [] :: stack =>
          exact ih visited stack S N h1 h2 h3 h4 hvis
            (fun f hf => hstP f (List.mem_cons.mpr (Or.inr hf)))
      | (eid :: more) :: stack =>
          rw [dfsBackEdges_cons_eq]
          have hPe : P eid :=
            hstP (eid :: more) (List.mem_cons.mpr (Or.inl rfl)) eid
              (List.mem_cons.mpr (Or.inl rfl))
          have hstP' : ∀ f ∈ more :: stack, ∀ e ∈ f, P e := by
            intro f hf e he
            rcases List.mem_cons.mp hf with hf1 | hf1
            · exact hstP (eid :: more) (List.mem_cons.mpr (Or.inl rfl)) e
                (List.mem_cons.mpr (Or.inr (hf1 ▸ he)))
            · exact hstP f (List.mem_cons.mpr (Or.inr hf1)) e he
          by_cases hvc : visited.contains ((g.edge eid).dst)
          · rw [if_pos hvc]
            have hdst : (g.edge eid).dst ∈ scc :=
              hvis _ (by simpa using hvc)
            refine ih visited (more :: stack) _ _ ?_
              (insertUnique_nodup _ _ h2) ?_ ?_ hvis hstP'
            · rw [h1]
              by_cases hes : eid ∈ S
              · rw [insertUnique_eq_of_mem S eid hes]
                exact insertUnique_eq_of_mem _ _
                  ((mem_dedupL _ _).mpr (List.mem_map.mpr ⟨eid, hes, rfl⟩))
              · rw [show insertUnique S eid = S ++ [eid] by
                  unfold insertUnique
                  rw [if_neg hes]]
                rw [List.map_append, List.map_singleton, dedupL_append_singleton]
            · intro e he
              rcases (mem_insertUnique S eid e).mp he with he1 | he1
              · exact h3 e he1
              · exact he1 ▸ hPe
            · intro e he
              rcases (mem_insertUnique S eid e).mp he with he1 | he1
              · exact h4 e he1
              · exact he1 ▸ hdst
          · rw [if_neg hvc]
            by_cases hsc : scc.contains ((g.edge eid).dst)
            · rw [if_pos hsc]
              have hdst : (g.edge eid).dst ∈ scc := by simpa using hsc
              refine ih _ _ S N h1 h2 h3 h4 ?_ ?_
              · intro b hb
                rcases List.mem_append.mp hb with hb1 | hb1
                · exact hvis b hb1
                · exact (List.mem_singleton.mp hb1) ▸ hdst
              · intro f hf e he
                rcases List.mem_cons.mp hf with hf1 | hf1
                · exact hP _ hdst e (hf1 ▸ he)
                · exact hstP' f hf1 e he
            · rw [if_neg hsc]
              exact ih visited (more :: stack) S N h1 h2 h3 h4 hvis hstP'

/-- Preservation conclusions of `createRedirectorBlock` that need no
distinctness or validity of the redirected list. -/
theorem createRedirectorBlock_preserve (g : CFG) (es : List EdgeId) :
    (∀ k, k ∈ g.edges.map Prod.fst → k ∉ es →
      (createRedirectorBlock g es).1.edge k = g.edge k) ∧
    (∀ b, (createRedirectorBlock g es).2 ≠ b →
      ((createRedirectorBlock g es).1.block b).successors =
        (g.block b).successors) ∧
    (∀ k, k ∈ g.edges.map Prod.fst →
      k ∈ (createRedirectorBlock g es).1.edges.map Prod.fst) := by
  have hg0edge : ∀ k, ({ g with blocks := g.blocks ++ [(freshBlockId g, defaultBlock)] }
      : CFG).edge k = g.edge k := fun _ => rfl
  obtain ⟨p1, p2, p3⟩ := redirectFold_preserve (freshBlockId g) es
    { g with blocks := g.blocks ++ [(freshBlockId g, defaultBlock)] }
  refine ⟨?_, ?_, ?_⟩
  · intro k hk hkne
    rw [show (createRedirectorBlock g es).1 =
      es.foldl (redirectStep (freshBlockId g))
        { g with blocks := g.blocks ++ [(freshBlockId g, defaultBlock)] } from rfl,
      p1 k hk hkne, hg0edge]
  · intro b hb
    rw [show (createRedirectorBlock g es).1 =
      es.foldl (redirectStep (freshBlockId g))
        { g with blocks := g.blocks ++ [(freshBlockId g, defaultBlock)] } from rfl,
      p2 b hb, addBlock_block]
  · intro k hk
    exact p3 k hk

theorem dedupL_ne_nil (l : List Nat) (h : l ≠ []) : dedupL l ≠ [] := by
  match l, h with
  | x :: xs, _ =>
      intro hc
      have := (mem_dedupL (x :: xs) x).mpr (by simp)
      rw [hc] at this
      cases this

/-- The computed entering-edge set and entry-node set of one SCC (lines
72-135): the entry-node set is the deduplicated destination list of the
entering-edge set, which is duplicate-free, valid, and points into the
SCC. -/
theorem sccEnteringInfo_spec (g : CFG) (scc : List BlockId)
    (hwf1 : ∀ b ∈ scc, ∀ eid ∈ (g.block b).predecessors,
      eid ∈ g.edges.map Prod.fst ∧ (g.edge eid).dst = b)
    (hwf2 : ∀ b ∈ scc, ∀ eid ∈ (g.block b).successors,
      eid ∈ g.edges.map Prod.fst) :
    (sccEnteringInfo g scc).2 =
      dedupL ((sccEnteringInfo g scc).1.map (fun e => (g.edge e).dst)) ∧
    (sccEnteringInfo g scc).1.Nodup ∧
    (∀ e ∈ (sccEnteringInfo g scc).1, e ∈ g.edges.map Prod.fst) ∧
    (∀ e ∈ (sccEnteringInfo g scc).1, (g.edge e).dst ∈ scc) := by
  obtain ⟨c1, c2, c3, c4, c5⟩ := collectSccEdges_spec g scc hwf1 hwf2
  cases scc with
  | nil =>
      refine ⟨?_, dedupL_nodup _, ?_, ?_⟩
      · show (collectSccEdges g []).entryNodes =
          dedupL ((dedupL (collectSccEdges g []).enteringEdges).map
            (fun e => (g.edge e).dst))
        rw [c1, dedupL_map_dedupL]
      · intro e he
        exact c2 e ((mem_dedupL _ _).mp he)
      · intro e he
        exact c3 e ((mem_dedupL _ _).mp he)
  | cons front rest =>
      have hstart : (sccEnteringInfo g (front :: rest)) =
          dfsBackEdges g (front :: rest) (dfsFuel g (front :: rest)) [front]
            [(g.block front).successors]
            (dedupL (collectSccEdges g (front :: rest)).enteringEdges)
            (collectSccEdges g (front :: rest)).entryNodes := rfl
      rw [hstart]
      exact dfsBackEdges_inv g (front :: rest) (fun e => e ∈ g.edges.map Prod.fst)
        hwf2 (dfsFuel g (front :: rest)) [front] [(g.block front).successors]
        (dedupL (collectSccEdges g (front :: rest)).enteringEdges)
        (collectSccEdges g (front :: rest)).entryNodes
        (by rw [c1, dedupL_map_dedupL])
        (dedupL_nodup _)
        (fun e he => c2 e ((mem_dedupL _ _).mp he))
        (fun e he => c3 e ((mem_dedupL _ _).mp he))
        (by intro b hb; rw [List.mem_singleton.mp hb]; simp)
        (by
          intro f hf e he
          rw [List.mem_singleton.mp hf] at he
          exact hwf2 front (by simp) e he)

/-- C5: for an SCC processed by the normalizer (under the usual edge-list
well-formedness, and given that the computed entering-edge set is nonempty —
which holds for every SCC containing a cycle, since its DFS finds at least
one back-edge), after `processScc` the set of distinct destination blocks of
the entering edges (external entering edges together with the detected
back-edges) has size exactly 1; and when the pre-normalization entry-node
set has more than one member, a single redirector block receives every
entering edge — each retargeted in place, keeping source and condition —
and forwards to each original destination under the original edge's
condition. -/
theorem processScc_single_entry (g : CFG) (scc : List BlockId)
    (hwf1 : ∀ b ∈ scc, ∀ eid ∈ (g.block b).predecessors,
      eid ∈ g.edges.map Prod.fst ∧ (g.edge eid).dst = b)
    (hwf2 : ∀ b ∈ scc, ∀ eid ∈ (g.block b).successors,
      eid ∈ g.edges.map Prod.fst)
    (hne : (sccEnteringInfo g scc).1 ≠ []) :
    (dedupL ((sccEnteringInfo g scc).1.map
      (fun eid => ((processScc g scc).edge eid).dst))).length = 1 ∧
    (1 < (sccEnteringInfo g scc).2.length →
      ∃ r, ∀ eid ∈ (sccEnteringInfo g scc).1,
        (processScc g scc).edge eid =
          Edge.mk (g.edge eid).src r (g.edge eid).edgeCondition ∧
        ∃ nid, nid ∈ ((processScc g scc).block r).successors ∧
          (processScc g scc).edge nid =
            Edge.mk r (g.edge eid).dst (g.edge eid).edgeCondition) := by
  obtain ⟨F1, F2, F3, F4⟩ := sccEnteringInfo_spec g scc hwf1 hwf2
  obtain ⟨-, -, -, c4, c5⟩ := collectSccEdges_spec g scc hwf1 hwf2
  have hdisj : ∀ e ∈ (sccEnteringInfo g scc).1,
      e ∉ (collectSccEdges g scc).exitingEdges := by
    intro e he hc
    have h5 : (g.edge e).dst ∉ scc := by simpa using c5 e hc
    exact h5 (F4 e he)
  have hps : processScc g scc =
      (if 1 < (collectSccEdges g scc).exitNodes.length then
        (createRedirectorBlock
          (if 1 < (sccEnteringInfo g scc).2.length then
            (createRedirectorBlock g (sccEnteringInfo g scc).1).1
          else g)
          (collectSccEdges g scc).exitingEdges).1
      else
        (if 1 < (sccEnteringInfo g scc).2.length then
          (createRedirectorBlock g (sccEnteringInfo g scc).1).1
        else g)) := rfl
  by_cases hentry : 1 < (sccEnteringInfo g scc).2.length
  · -- a redirector is created for the entering edges
    obtain ⟨a1, a2, a3, a4, a5, a6, a7⟩ :=
      createRedirectorBlock_spec g (sccEnteringInfo g scc).1 F3 F2
    have hfin : ∀ k, k ∈ (createRedirectorBlock g
        (sccEnteringInfo g scc).1).1.edges.map Prod.fst →
        k ∉ (collectSccEdges g scc).exitingEdges →
        (processScc g scc).edge k =
          (createRedirectorBlock g (sccEnteringInfo g scc).1).1.edge k := by
      intro k hk hkne
      rw [hps, if_pos hentry]
      by_cases hexit : 1 < (collectSccEdges g scc).exitNodes.length
      · rw [if_pos hexit]
        obtain ⟨q1, -, -⟩ := createRedirectorBlock_preserve
          (createRedirectorBlock g (sccEnteringInfo g scc).1).1
          (collectSccEdges g scc).exitingEdges
        exact q1 k hk hkne
      · rw [if_neg hexit]
    have hfinsucc : ((processScc g scc).block
        (createRedirectorBlock g (sccEnteringInfo g scc).1).2).successors =
        ((createRedirectorBlock g (sccEnteringInfo g scc).1).1.block
          (createRedirectorBlock g (sccEnteringInfo g scc).1).2).successors := by
      rw [hps, if_pos hentry]
      by_cases hexit : 1 < (collectSccEdges g scc).exitNodes.length
      · rw [if_pos hexit]
        obtain ⟨-, q2, -⟩ := createRedirectorBlock_preserve
          (createRedirectorBlock g (sccEnteringInfo g scc).1).1
          (collectSccEdges g scc).exitingEdges
        apply q2
        show freshBlockId (createRedirectorBlock g (sccEnteringInfo g scc).1).1 ≠ _
        exact (Nat.ne_of_lt (lt_freshBlockId_of_mem _ _ a6)).symm
      · rw [if_neg hexit]
    have hedge : ∀ eid ∈ (sccEnteringInfo g scc).1,
        (processScc g scc).edge eid =
          Edge.mk (g.edge eid).src
            (createRedirectorBlock g (sccEnteringInfo g scc).1).2
            (g.edge eid).edgeCondition := by
      intro eid he
      rw [hfin eid (a5 eid (F3 eid he)) (hdisj eid he), a1 eid he]
    refine ⟨?_, fun _ => ⟨(createRedirectorBlock g (sccEnteringInfo g scc).1).2, ?_⟩⟩
    · apply nodup_all_eq_length_eq_one _
        (createRedirectorBlock g (sccEnteringInfo g scc).1).2 (dedupL_nodup _)
      · apply dedupL_ne_nil
        intro hc
        rw [List.map_eq_nil_iff] at hc
        exact hne hc
      · intro x hx
        rw [mem_dedupL] at hx
        obtain ⟨e, he, hex⟩ := List.mem_map.mp hx
        rw [hedge e he] at hex
        exact hex.symm
    · intro eid he
      refine ⟨hedge eid he, ?_⟩
      obtain ⟨nid, hn1, hn2, hn3, hn4⟩ := a2 eid he
      refine ⟨nid, ?_, ?_⟩
      · rw [hfinsucc]
        exact hn1
      · rw [hfin nid hn2 (fun hc => hn3 (c4 nid hc)), hn4]
  · -- the entering edges keep their destinations
    have hfin : ∀ k, k ∈ g.edges.map Prod.fst →
        k ∉ (collectSccEdges g scc).exitingEdges →
        (processScc g scc).edge k = g.edge k := by
      intro k hk hkne
      rw [hps, if_neg hentry]
      by_cases hexit : 1 < (collectSccEdges g scc).exitNodes.length
      · rw [if_pos hexit]
        obtain ⟨q1, -, -⟩ := createRedirectorBlock_preserve g
          (collectSccEdges g scc).exitingEdges
        exact q1 k hk hkne
      · rw [if_neg hexit]
    refine ⟨?_, fun hc => absurd hc hentry⟩
    have hmapeq : (sccEnteringInfo g scc).1.map
        (fun eid => ((processScc g scc).edge eid).dst) =
        (sccEnteringInfo g scc).1.map (fun eid => (g.edge eid).dst) := by
      apply List.map_congr_left
      intro e he
      rw [hfin e (F3 e he) (hdisj e he)]
    rw [hmapeq, ← F1]
    have hlen : (sccEnteringInfo g scc).2 ≠ [] := by
      rw [F1]
      apply dedupL_ne_nil
      intro hc
      rw [List.map_eq_nil_iff] at hc
      exact hne hc
    have hpos : 0 < (sccEnteringInfo g scc).2.length := List.length_pos.mpr hlen
    omega

/-- An irreducible two-block cycle (blocks 1 and 2) with external entries
into both (edges 0 and 1 from block 0) — spec section 8, Scenario C. -/
def wIrr : CFG :=
  { blocks := [(0, ⟨[], [0, 1], none⟩), (1, ⟨[0, 3], [2], none⟩),
               (2, ⟨[1, 2], [3], none⟩)],
    edges := [(0, ⟨0, 1, Expr.atom 0⟩), (1, ⟨0, 2, Expr.atom 1⟩),
              (2, ⟨1, 2, Expr.etrue⟩), (3, ⟨2, 1, Expr.etrue⟩)] }

/-- Witness for C5 on the irreducible cycle `wIrr`. -/
theorem processScc_single_entry_witness :
    (dedupL ((sccEnteringInfo wIrr [1, 2]).1.map
      (fun eid => ((processScc wIrr [1, 2]).edge eid).dst))).length = 1 ∧
    (1 < (sccEnteringInfo wIrr [1, 2]).2.length →
      ∃ r, ∀ eid ∈ (sccEnteringInfo wIrr [1, 2]).1,
        (processScc wIrr [1, 2]).edge eid =
          Edge.mk (wIrr.edge eid).src r (wIrr.edge eid).edgeCondition ∧
        ∃ nid, nid ∈ ((processScc wIrr [1, 2]).block r).successors ∧
          (processScc wIrr [1, 2]).edge nid =
            Edge.mk r (wIrr.edge eid).dst (wIrr.edge eid).edgeCondition) :=
  processScc_single_entry wIrr [1, 2] (by decide) (by decide) (by decide)

/-- C7 is false as stated: a degenerate self-loop (block 0 of `selfLoopG`,
whose only cycle-forming edge targets itself) IS processed by the
normalization loop — `scc_iterator::hasLoop()` is true for a single-node
SCC with a self-edge, so the SCC passes the filter at line 64 and is pushed
into `stronglyConnectedComponents` — although processing it allocates
nothing here. -/
theorem self_loop_is_processed :
    sccHasLoop selfLoopG [0] = true ∧
    List.filter (fun scc => sccHasLoop selfLoopG scc) [[0]] = [[0]] ∧
    ensureSingleEntrySingleExitCycles selfLoopG [[0]] = processScc selfLoopG [0] :=
  ⟨rfl, rfl, rfl⟩

/-- C7 (amended): a degenerate self-loop IS processed by the normalization
loop (`hasLoop()` is true for a single node with a self-edge), but its
processing never triggers the entry redirector — for a well-formed
single-block SCC the entry-node set has at most one member — and an SCC
whose computed entry-node set and exit-node set each have at most one
member is left completely untouched, with no block allocation. -/
theorem processScc_self_loop_no_redirector :
    (∀ (g : CFG) (b : BlockId),
      (g.block b).successors.any (fun e => (g.edge e).dst == b) = true →
      sccHasLoop g [b] = true) ∧
    (∀ (g : CFG) (scc : List BlockId),
      ¬ 1 < (sccEnteringInfo g scc).2.length →
      ¬ 1 < (collectSccEdges g scc).exitNodes.length →
      processScc g scc = g) ∧
    (∀ (g : CFG) (b : BlockId),
      (∀ eid ∈ (g.block b).predecessors,
        eid ∈ g.edges.map Prod.fst ∧ (g.edge eid).dst = b) →
      (∀ eid ∈ (g.block b).successors, eid ∈ g.edges.map Prod.fst) →
      (sccEnteringInfo g [b]).2.length ≤ 1) := by
  refine ⟨?_, ?_, ?_⟩
  · intro g b h
    unfold sccHasLoop
    simp only [List.any_cons, List.any_nil, Bool.or_false, h, Bool.or_true]
  · intro g scc hentry hexit
    have hps : processScc g scc =
        (if 1 < (collectSccEdges g scc).exitNodes.length then
          (createRedirectorBlock
            (if 1 < (sccEnteringInfo g scc).2.length then
              (createRedirectorBlock g (sccEnteringInfo g scc).1).1
            else g)
            (collectSccEdges g scc).exitingEdges).1
        else
          (if 1 < (sccEnteringInfo g scc).2.length then
            (createRedirectorBlock g (sccEnteringInfo g scc).1).1
          else g)) := rfl
    rw [hps, if_neg hexit, if_neg hentry]
  · intro g b hwf1 hwf2
    have hwf1' : ∀ b' ∈ [b], ∀ eid ∈ (g.block b').predecessors,
        eid ∈ g.edges.map Prod.fst ∧ (g.edge eid).dst = b' := by
      intro b' hb'
      rw [List.mem_singleton.mp hb']
      exact hwf1
    have hwf2' : ∀ b' ∈ [b], ∀ eid ∈ (g.block b').successors,
        eid ∈ g.edges.map Prod.fst := by
      intro b' hb'
      rw [List.mem_singleton.mp hb']
      exact hwf2
    obtain ⟨F1, -, -, F4⟩ := sccEnteringInfo_spec g [b] hwf1' hwf2'
    apply nodup_all_eq_length_le_one _ b (by rw [F1]; exact dedupL_nodup _)
    intro x hx
    rw [F1, mem_dedupL] at hx
    obtain ⟨e, he, hex⟩ := List.mem_map.mp hx
    have := F4 e he
    rw [hex] at this
    exact List.mem_singleton.mp this

/-- Witness for the amended C7 on the degenerate self-loop `selfLoopG`. -/
theorem processScc_self_loop_no_redirector_witness :
    sccHasLoop selfLoopG [0] = true ∧
    processScc selfLoopG [0] = selfLoopG ∧
    (sccEnteringInfo selfLoopG [0]).2.length ≤ 1 :=
  ⟨processScc_self_loop_no_redirector.1 selfLoopG 0 (by decide),
   processScc_self_loop_no_redirector.2.1 selfLoopG [0] (by decide) (by decide),
   processScc_self_loop_no_redirector.2.2 selfLoopG 0 (by decide) (by decide)⟩

end Fcd
